import Mathlib

/-!
Shallow embedding of `src/search.py` (minecraft-scripts): the Thaumcraft
aspect-catalog normalizer (`Item.from_raw`, `load_aspects`) and the aspect
query engine (`search_aspects`).

Modelling conventions: Python strings are character lists (`Str`), Python
dicts are insertion-ordered association lists with unique keys (`dictInsert`
reproduces `d[k] = v`: update in place, else append), Python `==` on dicts is
the order-insensitive `dictBeq`, and code that can raise returns `Option`.
-/

namespace Thaum

/-- Python strings, modelled as their character lists. -/
abbrev Str := List Char

/-- The literal variant separator `" --- "` used by `Item.from_raw`. -/
def sepStr : Str := (" --- ").toList

/-- The placeholder `'None'` string that `load_aspects` inserts when merging a
record that carried no variant. -/
def noneStr : Str := ("None").toList

/-- The four leading characters of the separator.  A raw name ending in this
string makes the appended separator overlap with the name, which matters for
the behaviour of `partition` on `name + " --- "`. -/
def sfxStr : Str := (" ---").toList

/-- Python `s.partition(sep)`, restricted to the informative part: returns
`some (before, after)` for a split at the first occurrence of `sep`, or
`none` when `sep` does not occur in `s`. -/
def findSep (sep : Str) : Str → Option (Str × Str)
  | [] => none
  | c :: rest =>
    if sep.isPrefixOf (c :: rest) then some ([], (c :: rest).drop sep.length)
    else
      match findSep sep rest with
      | some (b, a) => some (c :: b, a)
      | none => none

/-- Numeric value of a decimal digit character. -/
def digitVal (c : Char) : Nat := c.toNat - ('0').toNat

/-- Value of an all-digit string read in base 10. -/
def digitsVal (cs : Str) : Nat := cs.foldl (fun n c => 10 * n + digitVal c) 0

/-- Python `int(s)` as applied by `Item.from_raw` to the portion before the
first space: an optional sign followed by a nonempty digit string is a valid
integer, everything else raises (here: `none`). -/
def parseInt : Str → Option Int
  | ('-') :: rest =>
    if rest ≠ [] ∧ rest.all Char.isDigit then some (-(digitsVal rest : Int)) else none
  | ('+') :: rest =>
    if rest ≠ [] ∧ rest.all Char.isDigit then some ((digitsVal rest : Int)) else none
  | cs =>
    if cs ≠ [] ∧ cs.all Char.isDigit then some ((digitsVal cs : Int)) else none

/-- Parsing of one raw weight string, `str.split(x, " ", 1)` followed by
`int` on the first part: `some (aspectName, weight)` on success, `none` when
the string has no space or the part before the first space is not a valid
integer. -/
def parseWeight (s : Str) : Option (Str × Int) :=
  match findSep [' '] s with
  | none => none
  | some (pre, post) =>
    match parseInt pre with
    | none => none
    | some n => some (post, n)

/-- Keys of an association-list dict, in insertion order. -/
def dictKeys (m : List (Str × Int)) : List Str := m.map Prod.fst

/-- Python `d[k] = v` on an insertion-ordered dict: update in place when the
key is present, otherwise append at the end. -/
def dictInsert (m : List (Str × Int)) (k : Str) (v : Int) : List (Str × Int) :=
  if k ∈ dictKeys m then m.map (fun p => if p.1 = k then (k, v) else p)
  else m ++ [(k, v)]

/-- Python `==` on dicts: same size and every key/value pair of `a` present in
`b`.  This coincides with Python dict equality whenever keys are unique, which
holds for every dict `dictInsert` builds. -/
def dictBeq (a b : List (Str × Int)) : Bool :=
  decide (a.length = b.length ∧ ∀ p ∈ a, p ∈ b)

/-- Python `d[k]` on an insertion-ordered dict: the value at the first entry
carrying the key (the only one, since keys are unique). -/
def dictLookup : List (Str × Int) → Str → Option Int
  | [], _ => none
  | p :: rest, k => if p.1 = k then some p.2 else dictLookup rest k

/-- The value the dict comprehension of `Item.from_raw` ends up binding a key
to: the parsed integer of the LAST weight string in the record that carries
that key (later bindings overwrite earlier ones), or `none` when no weight
string carries it. -/
def lastBinding (k : Str) : List Str → Option Int
  | [] => none
  | w :: rest =>
    match lastBinding k rest with
    | some n => some n
    | none =>
      match parseWeight w with
      | none => none
      | some kv => if kv.1 = k then some kv.2 else none

/-- The `Item` dataclass of `search.py`: canonical name, optional list of
variant strings (`data`), and the aspect-name to weight dict. -/
structure Item where
  item : Str
  data : Option (List Str)
  aspects : List (Str × Int)
deriving DecidableEq, Inhabited

/-- Python `==` on `Item`: the dataclass field-wise equality, with dict
equality on `aspects`. -/
def itemEq (a b : Item) : Bool :=
  decide (a.item = b.item) && decide (a.data = b.data) && dictBeq a.aspects b.aspects

/-- The dict comprehension of `Item.from_raw`, processed left to right with an
accumulator; fails (Python raises) when some weight string does not parse. -/
def buildAspectsFrom (m : List (Str × Int)) : List Str → Option (List (Str × Int))
  | [] => some m
  | s :: rest =>
    match parseWeight s with
    | none => none
    | some kv => buildAspectsFrom (dictInsert m kv.1 kv.2) rest

/-- Aspect dict built from the raw weight strings of one record. -/
def buildAspects (asp : List Str) : Option (List (Str × Int)) :=
  buildAspectsFrom [] asp

/-- Model of `Item.from_raw` from `search.py`: splits the raw name on `" --- "` into
canonical name and optional variant (an empty variant counts as absent,
mirroring `[data] if data else None`), and parses the weight strings. -/
def Item.from_raw (name : Str) (asp : List Str) : Option Item :=
  match buildAspects asp with
  | none => none
  | some aspects =>
    match findSep sepStr name with
    | none => some ⟨name, none, aspects⟩
    | some (nm, post) => some ⟨nm, if post = [] then none else some [post], aspects⟩

/-- The merge step of `load_aspects`:
`v.data = (v.data or ['None']) + (item.data or ['None'])`. -/
def mergedItem (v it : Item) : Item :=
  { v with data := some (v.data.getD [noneStr] ++ it.data.getD [noneStr]) }

/-- The inner scan of the dedup loop of `load_aspects`: merge `it` into the
first group member with dict-equal aspects, or `none` when no member matches. -/
def mergeGroup : List Item → Item → Option (List Item)
  | [], _ => none
  | v :: vs, it =>
    if dictBeq v.aspects it.aspects then some (mergedItem v it :: vs)
    else (mergeGroup vs it).map (fun vs2 => v :: vs2)

/-- One step of the dedup loop of `load_aspects`: find (or create) the group
keyed by `it.item`, then merge `it` into it or append `it` to it. -/
def insertItem (out : List (Str × List Item)) (it : Item) : List (Str × List Item) :=
  match out with
  | [] => [(it.item, [it])]
  | (k, vl) :: rest =>
    if k = it.item then
      match mergeGroup vl it with
      | some vl2 => (k, vl2) :: rest
      | none => (k, vl ++ [it]) :: rest
    else (k, vl) :: insertItem rest it

/-- The dedup loop of `load_aspects`, iterating over the parsed records. -/
def buildOut (out : List (Str × List Item)) : List Item → List (Str × List Item)
  | [] => out
  | it :: rest => buildOut (insertItem out it) rest

/-- The dedup pass of `load_aspects` followed by
`list(itertools.chain(*out.values()))`. -/
def dedupe (raw : List Item) : List Item :=
  ((buildOut [] raw).map Prod.snd).flatten

/-- Model of `list(map(Item.from_raw, item_dict.items()))` with exception propagation:
one failing record fails the whole list. -/
def parseAll : List (Str × List Str) → Option (List Item)
  | [] => some []
  | p :: rest =>
    match Item.from_raw p.1 p.2, parseAll rest with
    | some it, some l => some (it :: l)
    | _, _ => none

/-- Model of `load_aspects` from `search.py`. -/
def load_aspects (item_dict : List (Str × List Str)) : Option (List Item) :=
  (parseAll item_dict).map dedupe

/-- The containment check of `search_aspects`:
`all(a in i.aspects for a in search)`. -/
def matchesGroup (search : List Str) (i : Item) : Bool :=
  search.all (fun a => decide (a ∈ dictKeys i.aspects))

/-- Python `x in out` on the result list (value equality of `Item`). -/
def pyMem (x : Item) (out : List Item) : Bool :=
  out.any (fun e => itemEq e x)

/-- Model of `out.extend(filter(lambda x: x not in out, found))`: the membership test
sees the elements appended earlier during the same pass. -/
def dedupAppend (out : List Item) : List Item → List Item
  | [] => out
  | x :: xs => if pyMem x out then dedupAppend out xs else dedupAppend (out ++ [x]) xs

/-- One group's matches: the containment filter and, under `perfect`, the
exact-size filter `len(i.aspects) == len(search)`. -/
def groupFound (search : List Str) (items : List Item) (perfect : Bool) : List Item :=
  let found := items.filter (fun i => matchesGroup search i)
  if perfect then found.filter (fun i => decide (i.aspects.length = search.length)) else found

/-- The loop over the search groups in `search_aspects`. -/
def searchLoop (items : List Item) (perfect : Bool) (out : List Item) :
    List (List Str) → List Item
  | [] => out
  | s :: rest => searchLoop items perfect (dedupAppend out (groupFound s items perfect)) rest

/-- Model of `search_aspects` from `search.py`: under `or_find` the requested names
become singleton groups, otherwise the whole request is one group. -/
def search_aspects (to_find : List Str) (items : List Item) (or_find perfect : Bool) :
    List Item :=
  searchLoop items perfect [] (if or_find then to_find.map (fun x => [x]) else [to_find])

/-- State-passing rendering of `search_aspects` for the frame property: the
input entry list is the mutable state threaded through every step of the
loop; the code reads it in `groupFound` and contains no write to it, so each
step passes it on unchanged. -/
def searchLoopS (perfect : Bool) : List Item × List Item → List (List Str) → List Item × List Item
  | st, [] => st
  | (out, itemsSt), s :: rest =>
    searchLoopS perfect (dedupAppend out (groupFound s itemsSt perfect), itemsSt) rest

/-- State-passing `search_aspects`: returns the result list together with the
final state of the input entry list. -/
def search_aspects_s (to_find : List Str) (items : List Item) (or_find perfect : Bool) :
    List Item × List Item :=
  searchLoopS perfect ([], items) (if or_find then to_find.map (fun x => [x]) else [to_find])

/-- Well-formedness of a dict value: keys are unique.  Every dict produced by
`dictInsert` (hence by parsing) satisfies it. -/
abbrev wfA (m : List (Str × Int)) : Prop := (dictKeys m).Nodup

/-- Effect of one dedup step on a single group, as the source computes it:
merge if possible, else append. -/
def addToGroup (vl : List Item) (it : Item) : List Item :=
  match mergeGroup vl it with
  | some vl2 => vl2
  | none => vl ++ [it]

/-- Folding a whole run of records into one group. -/
def groupFold (vl : List Item) : List Item → List Item
  | [] => vl
  | it :: rest => groupFold (addToGroup vl it) rest

/-- Data of a merged entry after folding the contributors `cs` into an entry
whose data started as `d0`. -/
def mergedData (cs : List Item) (d0 : Option (List Str)) : Option (List Str) :=
  cs.foldl (fun acc c => some (acc.getD [noneStr] ++ c.data.getD [noneStr])) d0

/-- The group representative that the contributors `v :: qc` collapse to. -/
def repM (v : Item) (qc : List Item) : Item := ⟨v.item, mergedData qc v.data, v.aspects⟩

/-- Representative list of a fresh dict-equality class with the given
contributors. -/
def specNew : List Item → List Item
  | [] => []
  | c :: cs => [repM c cs]

/-- Membership of an item in the dict-equality class of aspects `A`. -/
def inClass (A : List (Str × Int)) (it : Item) : Bool := dictBeq A it.aspects

/-- Sublist of the members of the class of `A`. -/
def classFilter (A : List (Str × Int)) (l : List Item) : List Item := l.filter (inClass A)

/-- Association lookup on the grouped state of the dedup loop. -/
def lookupG (n : Str) : List (Str × List Item) → Option (List Item)
  | [] => none
  | (k, vl) :: rest => if k = n then some vl else lookupG n rest

/-! Basic facts about dict equality and item equality. -/

theorem dictBeq_iff {a b : List (Str × Int)} :
    dictBeq a b = true ↔ a.length = b.length ∧ ∀ p ∈ a, p ∈ b := by
  simp [dictBeq]

theorem dictBeq_refl (a : List (Str × Int)) : dictBeq a a = true := by
  simp [dictBeq]

theorem dictBeq_of_perm {a b : List (Str × Int)} (h : a.Perm b) : dictBeq a b = true :=
  dictBeq_iff.mpr ⟨h.length_eq, fun _ hp => h.subset hp⟩

theorem wfA_nodup {m : List (Str × Int)} (h : wfA m) : m.Nodup :=
  List.Nodup.of_map Prod.fst h

theorem perm_of_dictBeq {a b : List (Str × Int)} (ha : wfA a) (h : dictBeq a b = true) :
    a.Perm b := by
  rcases dictBeq_iff.mp h with ⟨hlen, hsub⟩
  exact (List.subperm_of_subset (wfA_nodup ha) hsub).perm_of_length_le (le_of_eq hlen.symm)

theorem wfA_of_dictBeq {a b : List (Str × Int)} (ha : wfA a) (h : dictBeq a b = true) :
    wfA b := (((perm_of_dictBeq ha h).map Prod.fst).nodup_iff).mp ha

theorem itemEq_iff {a b : Item} :
    itemEq a b = true ↔ a.item = b.item ∧ a.data = b.data ∧ dictBeq a.aspects b.aspects = true := by
  simp [itemEq, and_assoc]

theorem itemEq_refl (a : Item) : itemEq a a = true :=
  itemEq_iff.mpr ⟨rfl, rfl, dictBeq_refl _⟩

theorem pyMem_iff {x : Item} {out : List Item} :
    pyMem x out = true ↔ ∃ e ∈ out, itemEq e x = true := by
  simp [pyMem]

theorem pyMem_of_mem {x : Item} {out : List Item} (h : x ∈ out) : pyMem x out = true :=
  pyMem_iff.mpr ⟨x, h, itemEq_refl x⟩

theorem pyMem_append_right {x : Item} {out y : List Item} (h : pyMem x out = true) :
    pyMem x (out ++ y) = true := by
  rcases pyMem_iff.mp h with ⟨e, he, hx⟩
  exact pyMem_iff.mpr ⟨e, List.mem_append_left _ he, hx⟩

/-! Facts about the search result accumulation. -/

theorem pyMem_dedupAppend_left {x : Item} {out xs : List Item} (h : pyMem x out = true) :
    pyMem x (dedupAppend out xs) = true := by
  induction xs generalizing out with
  | nil => exact h
  | cons y ys ih =>
    simp only [dedupAppend]
    split
    · exact ih h
    · exact ih (pyMem_append_right h)

theorem pyMem_dedupAppend_right {x : Item} {out xs : List Item} (h : x ∈ xs) :
    pyMem x (dedupAppend out xs) = true := by
  induction xs generalizing out with
  | nil => cases h
  | cons y ys ih =>
    simp only [dedupAppend]
    rcases List.mem_cons.mp h with h | h
    · subst h
      split
      · exact pyMem_dedupAppend_left (by assumption)
      · exact pyMem_dedupAppend_left (pyMem_of_mem (List.mem_append_right _ (List.mem_singleton.mpr rfl)))
    · split <;> exact ih h

theorem mem_of_mem_dedupAppend {e : Item} {out xs : List Item}
    (h : e ∈ dedupAppend out xs) : e ∈ out ∨ e ∈ xs := by
  induction xs generalizing out with
  | nil => exact Or.inl h
  | cons y ys ih =>
    simp only [dedupAppend] at h
    split at h
    · rcases ih h with h | h
      · exact Or.inl h
      · exact Or.inr (List.mem_cons_of_mem _ h)
    · rcases ih h with h | h
      · rcases List.mem_append.mp h with h | h
        · exact Or.inl h
        · exact Or.inr (List.mem_cons.mpr (Or.inl (List.mem_singleton.mp h)))
      · exact Or.inr (List.mem_cons_of_mem _ h)

theorem pyMem_searchLoop {items : List Item} {perfect : Bool} {out : List Item}
    {ss : List (List Str)} {x : Item} (h : pyMem x out = true) :
    pyMem x (searchLoop items perfect out ss) = true := by
  induction ss generalizing out with
  | nil => exact h
  | cons s rest ih => exact ih (pyMem_dedupAppend_left h)

theorem pyMem_searchLoop_of_group {items : List Item} {perfect : Bool} {out : List Item}
    {ss : List (List Str)} {x : Item} {s : List Str} (hs : s ∈ ss)
    (hx : x ∈ groupFound s items perfect) :
    pyMem x (searchLoop items perfect out ss) = true := by
  induction ss generalizing out with
  | nil => cases hs
  | cons a rest ih =>
    simp only [searchLoop]
    rcases List.mem_cons.mp hs with h | h
    · subst h
      exact pyMem_searchLoop (pyMem_dedupAppend_right hx)
    · exact ih h

theorem mem_searchLoop {items : List Item} {perfect : Bool} {out : List Item}
    {ss : List (List Str)} {e : Item} (h : e ∈ searchLoop items perfect out ss) :
    e ∈ out ∨ ∃ s ∈ ss, e ∈ groupFound s items perfect := by
  induction ss generalizing out with
  | nil => exact Or.inl h
  | cons a rest ih =>
    rcases ih h with h | ⟨s, hs, hmem⟩
    · rcases mem_of_mem_dedupAppend h with h | h
      · exact Or.inl h
      · exact Or.inr ⟨a, List.mem_cons_self _ _, h⟩
    · exact Or.inr ⟨s, List.mem_cons_of_mem _ hs, hmem⟩

theorem mem_groupFound_iff {s : List Str} {items : List Item} {perfect : Bool} {i : Item} :
    i ∈ groupFound s items perfect ↔
      i ∈ items ∧ matchesGroup s i = true ∧
        (perfect = true → i.aspects.length = s.length) := by
  cases perfect with
  | false => simp [groupFound, List.mem_filter]
  | true =>
    simp only [groupFound, List.mem_filter, if_true]
    constructor
    · rintro ⟨⟨hi, hm⟩, hl⟩
      exact ⟨hi, hm, fun _ => by simpa using hl⟩
    · rintro ⟨hi, hm, hl⟩
      exact ⟨⟨hi, hm⟩, by simpa using hl (by trivial)⟩

theorem matchesGroup_iff {s : List Str} {i : Item} :
    matchesGroup s i = true ↔ ∀ a ∈ s, a ∈ dictKeys i.aspects := by
  simp [matchesGroup]

/-! C1.  The claim says the engine returns `[]` for an empty request in every
mode.  In the source, with `or_find` false the single group is the empty
list, `all(...)` over it is vacuously true and every entry matches, so the
claim is false; the no-op behaviour holds in the disjunctive mode, where an
empty request produces zero groups. -/

/-- C1 (counterexample): a conjunctive non-exact query with zero requested
names returns every entry, not the empty list. -/
theorem C1_counterexample :
    search_aspects [] [⟨("x").toList, none, [(("a").toList, 1)]⟩] false false ≠ [] := by decide

/-- C1 (amended): with `or_find = true` an empty request produces zero search
groups and `search_aspects` returns the empty result for every entry list and
every setting of `perfect`; with `or_find = false` it is not a no-op. -/
theorem C1_empty_query_or_mode (items : List Item) (perfect : Bool) :
    search_aspects [] items true perfect = [] := rfl

/-! C2.  `Item` is a `@dataclass`, so `x not in out` uses structural value
equality, not object identity: of two structurally identical entries only the
first ever enters the result. -/

/-- C2 (counterexample): the entry list holds two structurally identical
entries (two separately created equal objects in Python), both matching the
query; the result contains the entry once, not twice. -/
theorem C2_counterexample :
    search_aspects [("a").toList]
        [⟨("x").toList, none, [(("a").toList, 1)]⟩, ⟨("x").toList, none, [(("a").toList, 1)]⟩]
        false false
      = [⟨("x").toList, none, [(("a").toList, 1)]⟩] := by decide

theorem pairwise_dedupAppend {out xs : List Item}
    (h : out.Pairwise (fun a b => itemEq a b = false)) :
    (dedupAppend out xs).Pairwise (fun a b => itemEq a b = false) := by
  induction xs generalizing out with
  | nil => exact h
  | cons y ys ih =>
    simp only [dedupAppend]
    split
    · exact ih h
    · rename_i hnot
      refine ih (List.pairwise_append.mpr ⟨h, List.pairwise_singleton _ _, ?_⟩)
      intro a ha b hb
      rw [List.mem_singleton.mp hb]
      have hfalse : pyMem y out = false := by
        revert hnot
        cases pyMem y out <;> simp
      simp only [pyMem, List.any_eq_false] at hfalse
      simpa using hfalse a ha

theorem pairwise_searchLoop {items : List Item} {perfect : Bool} {out : List Item}
    {ss : List (List Str)} (h : out.Pairwise (fun a b => itemEq a b = false)) :
    (searchLoop items perfect out ss).Pairwise (fun a b => itemEq a b = false) := by
  induction ss generalizing out with
  | nil => exact h
  | cons s rest ih => exact ih (pairwise_dedupAppend h)

/-- C2 (amended): result deduplication uses `Item` value equality (the
dataclass `==`), so the result never contains two value-equal entries: of two
structurally identical entries that both match, only the first appears. -/
theorem C2_value_dedup (to_find : List Str) (items : List Item) (or_find perfect : Bool) :
    (search_aspects to_find items or_find perfect).Pairwise
      (fun a b => itemEq a b = false) :=
  pairwise_searchLoop List.Pairwise.nil

theorem search_aspects_and_def (tf : List Str) (items : List Item) (perfect : Bool) :
    search_aspects tf items false perfect = searchLoop items perfect [] [tf] := rfl

theorem search_aspects_or_def (tf : List Str) (items : List Item) (perfect : Bool) :
    search_aspects tf items true perfect =
      searchLoop items perfect [] (tf.map (fun x => [x])) := rfl

/-! C6.  Conjunctive results are contained in disjunctive results over the
same request — but only in the non-exact mode.  With `perfect` on, the
disjunctive groups are singletons and the exact-size check compares against
`1`, so a multi-aspect conjunctive exact match is rejected by every
singleton group. -/

/-- C6 (counterexample): with `perfect = true` and request `["a", "b"]`, the
entry with exactly the aspects `a` and `b` is returned conjunctively but not
disjunctively, refuting the claim for the exact mode. -/
theorem C6_counterexample :
    ⟨("e").toList, none, [(("a").toList, 1), (("b").toList, 2)]⟩ ∈
      search_aspects [("a").toList, ("b").toList]
        [⟨("e").toList, none, [(("a").toList, 1), (("b").toList, 2)]⟩] false true ∧
    pyMem ⟨("e").toList, none, [(("a").toList, 1), (("b").toList, 2)]⟩
      (search_aspects [("a").toList, ("b").toList]
        [⟨("e").toList, none, [(("a").toList, 1), (("b").toList, 2)]⟩] true true) = false := by
  exact ⟨by decide, by decide⟩

/-- C6 (amended): for a non-empty request and `perfect = false`, every entry
of the conjunctive result is contained (Python `in`, value equality) in the
disjunctive result over the same request. -/
theorem C6_or_superset_and (S : List Str) (items : List Item) (e : Item)
    (hne : S ≠ []) (he : e ∈ search_aspects S items false false) :
    pyMem e (search_aspects S items true false) = true := by
  rw [search_aspects_and_def] at he
  rcases mem_searchLoop he with h | ⟨s, hs, hmem⟩
  · cases h
  · rw [List.mem_singleton.mp hs] at hmem
    rcases mem_groupFound_iff.mp hmem with ⟨hi, hm, _⟩
    obtain ⟨a, S', rfl⟩ : ∃ a S', S = a :: S' := by
      cases S with
      | nil => exact absurd rfl hne
      | cons a S' => exact ⟨a, S', rfl⟩
    rw [search_aspects_or_def, List.map_cons]
    refine pyMem_searchLoop_of_group (List.mem_cons_self _ _) ?_
    refine mem_groupFound_iff.mpr ⟨hi, ?_, fun h => nomatch h⟩
    refine matchesGroup_iff.mpr fun b hb => ?_
    rw [List.mem_singleton.mp hb]
    exact matchesGroup_iff.mp hm a (List.mem_cons_self _ _)

/-- C6 (witness). -/
theorem C6_witness :
    pyMem ⟨("x").toList, none, [(("a").toList, 1)]⟩
      (search_aspects [("a").toList] [⟨("x").toList, none, [(("a").toList, 1)]⟩]
        true false) = true :=
  C6_or_superset_and _ _ _ (by decide) (by decide)

/-- C7: conjunctive matching is antitone in the requested set: a subset
request keeps every containment match, both at the level of the containment
check (source line 90) and of result membership for the non-exact conjunctive
query. -/
theorem C7_conj_antitone (e : Item) (S1 S2 : List Str) (items : List Item)
    (hsub : S1 ⊆ S2) :
    (matchesGroup S2 e = true → matchesGroup S1 e = true) ∧
    (e ∈ search_aspects S2 items false false →
      pyMem e (search_aspects S1 items false false) = true) := by
  constructor
  · intro h
    exact matchesGroup_iff.mpr fun a ha => matchesGroup_iff.mp h a (hsub ha)
  · intro he
    rw [search_aspects_and_def] at he
    rcases mem_searchLoop he with h | ⟨s, hs, hmem⟩
    · cases h
    · rw [List.mem_singleton.mp hs] at hmem
      rcases mem_groupFound_iff.mp hmem with ⟨hi, hm, _⟩
      rw [search_aspects_and_def]
      refine pyMem_searchLoop_of_group (List.mem_singleton.mpr rfl) ?_
      refine mem_groupFound_iff.mpr ⟨hi, ?_, fun h => nomatch h⟩
      exact matchesGroup_iff.mpr fun a ha => matchesGroup_iff.mp hm a (hsub ha)

/-- C7 (witness). -/
theorem C7_witness :
    pyMem ⟨("x").toList, none, [(("a").toList, 1), (("b").toList, 2)]⟩
      (search_aspects [("a").toList]
        [⟨("x").toList, none, [(("a").toList, 1), (("b").toList, 2)]⟩] false false) = true :=
  (C7_conj_antitone ⟨("x").toList, none, [(("a").toList, 1), (("b").toList, 2)]⟩
      [("a").toList] [("a").toList, ("b").toList]
      [⟨("x").toList, none, [(("a").toList, 1), (("b").toList, 2)]⟩]
      (fun x hx => by
        rw [List.mem_singleton.mp hx]
        exact List.mem_cons_self _ _)).2 (by decide)

/-! C3.  The exact conjunctive filter compares `len(i.aspects)` with the
LENGTH of the requested list, so a request with repeated names accepts
entries whose key set is strictly larger than the requested set; the claimed
equivalence holds once the request has no duplicates. -/

/-- C3 (counterexample): the duplicated request `["a", "a"]` returns an entry
whose key set `{a, b}` is not the requested set `{a}`. -/
theorem C3_counterexample :
    pyMem ⟨("x").toList, none, [(("a").toList, 1), (("b").toList, 2)]⟩
      (search_aspects [("a").toList, ("a").toList]
        [⟨("x").toList, none, [(("a").toList, 1), (("b").toList, 2)]⟩] false true) = true ∧
    ("b").toList ∈ dictKeys (⟨("x").toList, none,
      [(("a").toList, 1), (("b").toList, 2)]⟩ : Item).aspects ∧
    ("b").toList ∉ [("a").toList, ("a").toList] := by
  exact ⟨by decide, by decide, by decide⟩

/-- C3 (amended): for a request without repeated names and an entry of the
queried list, the entry is returned by the exact conjunctive query iff its
attribute key set equals the set of requested names. -/
theorem C3_exact_conj_keyset (e : Item) (S : List Str) (items : List Item)
    (he : e ∈ items) (hS : S.Nodup) (hwf : wfA e.aspects) :
    pyMem e (search_aspects S items false true) = true ↔
      ∀ a, a ∈ dictKeys e.aspects ↔ a ∈ S := by
  rw [search_aspects_and_def]
  constructor
  · intro h
    rcases pyMem_iff.mp h with ⟨e2, he2, heq⟩
    rcases mem_searchLoop he2 with h0 | ⟨s, hs, hmem⟩
    · cases h0
    · rw [List.mem_singleton.mp hs] at hmem
      rcases mem_groupFound_iff.mp hmem with ⟨_, hm, hlen⟩
      have hlen2 : e2.aspects.length = S.length := hlen rfl
      rcases itemEq_iff.mp heq with ⟨_, _, hbeq⟩
      rcases dictBeq_iff.mp hbeq with ⟨hleq, hsubp⟩
      have hSsub : S ⊆ dictKeys e.aspects := by
        intro a ha
        rcases List.mem_map.mp (matchesGroup_iff.mp hm a ha) with ⟨p, hp, hpa⟩
        exact hpa ▸ List.mem_map.mpr ⟨p, hsubp p hp, rfl⟩
      have hklen : (dictKeys e.aspects).length = S.length := by
        have := List.length_map e.aspects (Prod.fst)
        simp only [dictKeys]
        omega
      have hperm : S.Perm (dictKeys e.aspects) :=
        (List.subperm_of_subset hS hSsub).perm_of_length_le (le_of_eq hklen)
      intro a
      exact ⟨fun hk => hperm.symm.subset hk, fun hk => hperm.subset hk⟩
  · intro h
    have hm : matchesGroup S e = true := matchesGroup_iff.mpr fun a ha => (h a).mpr ha
    have hlen : e.aspects.length = S.length := by
      have h1 : (dictKeys e.aspects).toFinset = S.toFinset := by
        ext a
        simp only [List.mem_toFinset]
        exact h a
      have h2 := List.toFinset_card_of_nodup hwf
      have h3 := List.toFinset_card_of_nodup hS
      have h4 := List.length_map e.aspects (Prod.fst)
      rw [h1] at h2
      simp only [dictKeys] at h2 h4
      omega
    exact pyMem_searchLoop_of_group (List.mem_singleton.mpr rfl)
      (mem_groupFound_iff.mpr ⟨he, hm, fun _ => hlen⟩)

/-- C3 (witness). -/
theorem C3_witness :
    pyMem ⟨("x").toList, none, [(("a").toList, 1)]⟩
      (search_aspects [("a").toList] [⟨("x").toList, none, [(("a").toList, 1)]⟩]
        false true) = true :=
  (C3_exact_conj_keyset ⟨("x").toList, none, [(("a").toList, 1)]⟩ [("a").toList]
      [⟨("x").toList, none, [(("a").toList, 1)]⟩]
      (List.mem_singleton.mpr rfl) (by decide) (by decide)).mpr (fun a => Iff.rfl)

/-! C10.  The query engine neither reorders nor rewrites its input: rendered
with the entry list as explicit state, every loop step returns the state it
was given, and the result component coincides with the pure function. -/

theorem searchLoopS_eq (perfect : Bool) (ss : List (List Str)) (out items : List Item) :
    searchLoopS perfect (out, items) ss = (searchLoop items perfect out ss, items) := by
  induction ss generalizing out with
  | nil => rfl
  | cons s rest ih =>
    simp only [searchLoopS, searchLoop]
    exact ih _

/-- C10: the query engine is read-only with respect to its input: in the
state-passing rendering of `search_aspects` the input entry list comes back
unchanged (same length, order and entries), and the returned result is the
one of the pure function. -/
theorem C10_search_readonly (to_find : List Str) (items : List Item) (or_find perfect : Bool) :
    (search_aspects_s to_find items or_find perfect).2 = items ∧
    (search_aspects_s to_find items or_find perfect).1 =
      search_aspects to_find items or_find perfect := by
  unfold search_aspects_s search_aspects
  rw [searchLoopS_eq]
  exact ⟨rfl, rfl⟩

/-! Parsing: failure characterization and success semantics (C8). -/

theorem parseWeight_none_iff {w : Str} :
    parseWeight w = none ↔
      findSep [' '] w = none ∨
        ∃ pre post, findSep [' '] w = some (pre, post) ∧ parseInt pre = none := by
  cases hf : findSep [' '] w with
  | none => simp [parseWeight, hf]
  | some pr =>
    obtain ⟨pre0, post0⟩ := pr
    cases hp : parseInt pre0 with
    | none => simp [parseWeight, hf, hp]
    | some n => simp [parseWeight, hf, hp]

theorem parseWeight_some_iff {w : Str} {k : Str} {n : Int} :
    parseWeight w = some (k, n) ↔
      ∃ pre, findSep [' '] w = some (pre, k) ∧ parseInt pre = some n := by
  cases hf : findSep [' '] w with
  | none => simp [parseWeight, hf]
  | some pr =>
    obtain ⟨pre0, post0⟩ := pr
    cases hp : parseInt pre0 with
    | none => simp [parseWeight, hf, hp]
    | some m =>
      simp only [parseWeight, hf, hp, Option.some_inj, Prod.mk.injEq]
      constructor
      · rintro ⟨rfl, rfl⟩
        exact ⟨pre0, ⟨rfl, rfl⟩, hp⟩
      · rintro ⟨pre, ⟨h1, h2⟩, hpi⟩
        rw [← h1, hp] at hpi
        exact ⟨h2, Option.some_inj.mp hpi⟩

theorem buildAspectsFrom_none_iff {asp : List Str} {m : List (Str × Int)} :
    buildAspectsFrom m asp = none ↔ ∃ w ∈ asp, parseWeight w = none := by
  induction asp generalizing m with
  | nil => simp [buildAspectsFrom]
  | cons s rest ih =>
    simp only [buildAspectsFrom]
    cases hpw : parseWeight s with
    | none => simp [hpw]
    | some kv => simp [hpw, ih]

theorem from_raw_none_iff {name : Str} {asp : List Str} :
    Item.from_raw name asp = none ↔ buildAspects asp = none := by
  unfold Item.from_raw
  cases hb : buildAspects asp with
  | none => simp
  | some A => cases findSep sepStr name <;> simp

theorem from_raw_aspects {name : Str} {asp : List Str} {it : Item}
    (h : Item.from_raw name asp = some it) : buildAspects asp = some it.aspects := by
  unfold Item.from_raw at h
  cases hb : buildAspects asp with
  | none => rw [hb] at h; cases h
  | some A =>
    rw [hb] at h
    cases hf : findSep sepStr name with
    | none =>
      rw [hf] at h
      cases h
      rfl
    | some pr =>
      rw [hf] at h
      cases h
      rfl

theorem parseAll_none_iff {d : List (Str × List Str)} :
    parseAll d = none ↔ ∃ p ∈ d, Item.from_raw p.1 p.2 = none := by
  induction d with
  | nil => simp [parseAll]
  | cons p rest ih =>
    simp only [parseAll]
    cases hp : Item.from_raw p.1 p.2 with
    | none =>
      constructor
      · intro _
        exact ⟨p, List.mem_cons_self _ _, hp⟩
      · intro _
        rfl
    | some it =>
      cases hr : parseAll rest with
      | none =>
        constructor
        · intro _
          rcases ih.mp hr with ⟨q, hq, hqn⟩
          exact ⟨q, List.mem_cons_of_mem _ hq, hqn⟩
        · intro _
          rfl
      | some l =>
        constructor
        · intro h
          cases h
        · rintro ⟨q, hq, hqn⟩
          rcases List.mem_cons.mp hq with rfl | hq2
          · rw [hp] at hqn
            cases hqn
          · rw [ih.mpr ⟨q, hq2, hqn⟩] at hr
            cases hr

theorem dictKeys_dictInsert (m : List (Str × Int)) (k : Str) (v : Int) :
    dictKeys (dictInsert m k v) =
      if k ∈ dictKeys m then dictKeys m else dictKeys m ++ [k] := by
  unfold dictInsert
  by_cases hk : k ∈ dictKeys m
  · rw [if_pos hk, if_pos hk]
    unfold dictKeys
    rw [List.map_map]
    refine List.map_congr_left fun p _ => ?_
    by_cases h : p.1 = k
    · simp [Function.comp, h]
    · simp [Function.comp, h]
  · rw [if_neg hk, if_neg hk]
    simp [dictKeys]

theorem pair_mem_dictInsert_self (m : List (Str × Int)) (k : Str) (v : Int) :
    (k, v) ∈ dictInsert m k v := by
  unfold dictInsert
  by_cases hk : k ∈ dictKeys m
  · simp only [hk, if_true]
    rcases List.mem_map.mp hk with ⟨p, hp, hpk⟩
    exact List.mem_map.mpr ⟨p, hp, by simp [hpk]⟩
  · simp [hk]

theorem pair_mem_dictInsert_of_ne {m : List (Str × Int)} {k2 : Str} {v2 : Int}
    (h : (k2, v2) ∈ m) (k : Str) (v : Int) (hne : k2 ≠ k) :
    (k2, v2) ∈ dictInsert m k v := by
  unfold dictInsert
  by_cases hk : k ∈ dictKeys m
  · simp only [hk, if_true]
    exact List.mem_map.mpr ⟨(k2, v2), h, by simp [hne]⟩
  · simp [hk, List.mem_append, h]

theorem wfA_dictInsert {m : List (Str × Int)} (h : wfA m) (k : Str) (v : Int) :
    wfA (dictInsert m k v) := by
  unfold wfA
  rw [dictKeys_dictInsert]
  by_cases hk : k ∈ dictKeys m
  · rw [if_pos hk]
    exact h
  · rw [if_neg hk]
    refine List.Nodup.append h (List.nodup_singleton k) ?_
    intro a ha hb
    rw [List.mem_singleton] at hb
    exact hk (hb ▸ ha)

theorem mem_keys_buildAspectsFrom {asp : List Str} {m out : List (Str × Int)} {k : Str}
    (hb : buildAspectsFrom m asp = some out) (hk : k ∈ dictKeys m) : k ∈ dictKeys out := by
  induction asp generalizing m with
  | nil =>
    cases hb
    exact hk
  | cons s rest ih =>
    simp only [buildAspectsFrom] at hb
    cases hpw : parseWeight s with
    | none => rw [hpw] at hb; cases hb
    | some kv =>
      rw [hpw] at hb
      refine ih hb ?_
      rw [dictKeys_dictInsert]
      split
      · exact hk
      · exact List.mem_append_left _ hk

theorem pair_mem_buildAspectsFrom {asp : List Str} {m out : List (Str × Int)}
    {k : Str} {n : Int}
    (hb : buildAspectsFrom m asp = some out) (hp : (k, n) ∈ m)
    (huniq : ∀ w ∈ asp, ∀ n2, parseWeight w = some (k, n2) → n2 = n) :
    (k, n) ∈ out := by
  induction asp generalizing m with
  | nil =>
    cases hb
    exact hp
  | cons s rest ih =>
    simp only [buildAspectsFrom] at hb
    cases hpw : parseWeight s with
    | none => rw [hpw] at hb; cases hb
    | some kv =>
      obtain ⟨kv1, kv2⟩ := kv
      rw [hpw] at hb
      by_cases hkk : kv1 = k
      · subst hkk
        have hv : kv2 = n := huniq s (List.mem_cons_self _ _) kv2 hpw
        subst hv
        exact ih hb (pair_mem_dictInsert_self m kv1 kv2)
          fun w hw n2 h2 => huniq w (List.mem_cons_of_mem _ hw) n2 h2
      · exact ih hb (pair_mem_dictInsert_of_ne hp kv1 kv2 fun hc => hkk hc.symm)
          fun w hw n2 h2 => huniq w (List.mem_cons_of_mem _ hw) n2 h2

theorem wfA_buildAspectsFrom {asp : List Str} {m out : List (Str × Int)}
    (hb : buildAspectsFrom m asp = some out) (hm : wfA m) : wfA out := by
  induction asp generalizing m with
  | nil =>
    cases hb
    exact hm
  | cons s rest ih =>
    simp only [buildAspectsFrom] at hb
    cases hpw : parseWeight s with
    | none => rw [hpw] at hb; cases hb
    | some kv =>
      rw [hpw] at hb
      exact ih hb (wfA_dictInsert hm kv.1 kv.2)

theorem wfA_of_from_raw {name : Str} {asp : List Str} {it : Item}
    (h : Item.from_raw name asp = some it) : wfA it.aspects :=
  wfA_buildAspectsFrom (from_raw_aspects h) List.nodup_nil

theorem mem_keys_buildAspectsFrom_of_mem {asp : List Str} {m out : List (Str × Int)}
    {w : Str} {kv : Str × Int}
    (hb : buildAspectsFrom m asp = some out) (hw : w ∈ asp)
    (hpw : parseWeight w = some kv) : kv.1 ∈ dictKeys out := by
  induction asp generalizing m with
  | nil => cases hw
  | cons s rest ih =>
    simp only [buildAspectsFrom] at hb
    cases hps : parseWeight s with
    | none => rw [hps] at hb; cases hb
    | some kv2 =>
      rw [hps] at hb
      rcases List.mem_cons.mp hw with rfl | hw2
      · have hkv : kv2 = kv := by
          rw [hpw] at hps
          exact (Option.some_inj.mp hps).symm
        subst hkv
        refine mem_keys_buildAspectsFrom hb ?_
        show kv2.1 ∈ List.map Prod.fst _
        exact List.mem_map.mpr ⟨(kv2.1, kv2.2), pair_mem_dictInsert_self m kv2.1 kv2.2, rfl⟩
      · exact ih hb hw2

theorem pair_mem_buildAspectsFrom_of_mem {asp : List Str} {m out : List (Str × Int)}
    {w : Str} {k : Str} {n : Int}
    (hb : buildAspectsFrom m asp = some out) (hw : w ∈ asp)
    (hpw : parseWeight w = some (k, n))
    (huniq : ∀ w2 ∈ asp, ∀ n2, parseWeight w2 = some (k, n2) → n2 = n) :
    (k, n) ∈ out := by
  induction asp generalizing m with
  | nil => cases hw
  | cons s rest ih =>
    simp only [buildAspectsFrom] at hb
    cases hps : parseWeight s with
    | none => rw [hps] at hb; cases hb
    | some kv2 =>
      rw [hps] at hb
      rcases List.mem_cons.mp hw with rfl | hw2
      · have hkv : kv2 = (k, n) := by
          rw [hpw] at hps
          exact (Option.some_inj.mp hps).symm
        subst hkv
        exact pair_mem_buildAspectsFrom hb (by exact pair_mem_dictInsert_self m k n)
          fun w2 hw2 n2 hp2 => huniq w2 (List.mem_cons_of_mem _ hw2) n2 hp2
      · exact ih hb hw2 fun w2 hwm n2 hp2 => huniq w2 (List.mem_cons_of_mem _ hwm) n2 hp2

theorem dictLookup_append (m l : List (Str × Int)) (k : Str) :
    dictLookup (m ++ l) k =
      match dictLookup m k with
      | some v => some v
      | none => dictLookup l k := by
  induction m with
  | nil => rfl
  | cons p rest ih =>
    by_cases h : p.1 = k
    · simp [dictLookup, h]
    · simp [dictLookup, h, ih]

theorem dictLookup_eq_none_iff {m : List (Str × Int)} {k : Str} :
    dictLookup m k = none ↔ k ∉ dictKeys m := by
  induction m with
  | nil => simp [dictLookup, dictKeys]
  | cons p rest ih =>
    by_cases h : p.1 = k
    · simp [dictLookup, dictKeys, h]
    · simp only [dictLookup, dictKeys, List.map_cons, List.mem_cons]
      rw [if_neg h]
      simp only [dictKeys] at ih
      rw [ih]
      constructor
      · intro hn hor
        rcases hor with hor | hor
        · exact h hor.symm
        · exact hn hor
      · intro hn hm
        exact hn (Or.inr hm)

theorem dictLookup_update (m : List (Str × Int)) (k : Str) (v : Int) (k2 : Str) :
    dictLookup (m.map (fun p => if p.1 = k then (k, v) else p)) k2 =
      if k2 = k then (if k ∈ dictKeys m then some v else none)
      else dictLookup m k2 := by
  induction m with
  | nil => by_cases h : k2 = k <;> simp [dictLookup, dictKeys, h]
  | cons p rest ih =>
    by_cases hp : p.1 = k
    · by_cases h2 : k2 = k
      · subst h2
        simp [dictLookup, dictKeys, hp]
      · have h2s : ¬ k = k2 := fun hh => h2 hh.symm
        simp [dictLookup, dictKeys, hp, h2, h2s, ih]
    · by_cases h2 : k2 = k
      · subst h2
        have hps : ¬ k2 = p.1 := fun hh => hp hh.symm
        simp only [List.map_cons, dictLookup, dictKeys, hp, hps, ih, if_false,
          Bool.false_eq_true, eq_self_iff_true, if_true]
        by_cases hm : k2 ∈ List.map Prod.fst rest
        · rw [if_pos hm, if_pos (List.mem_cons_of_mem _ hm)]
        · rw [if_neg hm, if_neg ?_]
          intro hc
          rcases List.mem_cons.mp hc with hc | hc
          · exact hps hc
          · exact hm hc
      · by_cases hpk2 : p.1 = k2
        · simp [dictLookup, dictKeys, hp, h2, hpk2, ih]
        · simp [dictLookup, dictKeys, hp, h2, hpk2, ih]

theorem dictLookup_dictInsert (m : List (Str × Int)) (k : Str) (v : Int) (k2 : Str) :
    dictLookup (dictInsert m k v) k2 = if k2 = k then some v else dictLookup m k2 := by
  unfold dictInsert
  by_cases hk : k ∈ dictKeys m
  · rw [if_pos hk, dictLookup_update]
    by_cases h2 : k2 = k
    · rw [if_pos h2, if_pos h2, if_pos hk]
    · rw [if_neg h2, if_neg h2]
  · rw [if_neg hk, dictLookup_append]
    by_cases h2 : k2 = k
    · subst h2
      rw [dictLookup_eq_none_iff.mpr hk]
      simp [dictLookup]
    · rw [if_neg h2]
      cases hl : dictLookup m k2 with
      | some w => rfl
      | none =>
        show dictLookup [(k, v)] k2 = none
        simp only [dictLookup]
        rw [if_neg fun hh => h2 hh.symm]

theorem buildAspectsFrom_lastBinding {asp : List Str} {m out : List (Str × Int)}
    (hb : buildAspectsFrom m asp = some out) (k : Str) :
    dictLookup out k =
      match lastBinding k asp with
      | some n => some n
      | none => dictLookup m k := by
  induction asp generalizing m with
  | nil =>
    cases hb
    rfl
  | cons w rest ih =>
    simp only [buildAspectsFrom] at hb
    cases hpw : parseWeight w with
    | none =>
      rw [hpw] at hb
      cases hb
    | some kv =>
      rw [hpw] at hb
      have hih := ih hb
      cases hlb : lastBinding k rest with
      | some n =>
        have hwhole : lastBinding k (w :: rest) = some n := by
          simp only [lastBinding, hlb]
        rw [hwhole]
        rw [hlb] at hih
        exact hih
      | none =>
        have hwhole : lastBinding k (w :: rest) =
            (if kv.1 = k then some kv.2 else none) := by
          simp only [lastBinding, hlb, hpw]
        have hgoal : dictLookup out k = dictLookup (dictInsert m kv.1 kv.2) k := by
          rw [hih, hlb]
        rw [hgoal, dictLookup_dictInsert, hwhole]
        by_cases hkk : kv.1 = k
        · rw [if_pos hkk, if_pos hkk.symm]
        · rw [if_neg (fun hh => hkk hh.symm), if_neg hkk]

/-- C8 (counterexample): the success conjunct of the claim is false for
duplicate keys: the record `["1 a", "2 a"]` parses successfully to the dict
`{a: 2}`, so the weight string `"1 a"` does not end up contributing the pair
`a -> 1`: the later binding overwrote it. -/
theorem C8_counterexample :
    Item.from_raw ("X").toList [("1 a").toList, ("2 a").toList] =
      some ⟨("X").toList, none, [(("a").toList, 2)]⟩ ∧
    parseWeight ("1 a").toList = some (("a").toList, 1) ∧
    ((("a").toList, (1 : Int)) ∉ ([(("a").toList, (2 : Int))] : List (Str × Int))) := by
  exact ⟨by decide, by decide, by decide⟩

/-- C8 (amended): a record parse (`Item.from_raw`) fails exactly when some raw
weight string has no space or a non-integer portion before its first space;
one such failure makes the whole `load_aspects` fail (no partial list); and
on success every weight string parses and contributes the name after its
first space as a key of the aspects dict, whose value is the integer before
the first space of the LAST weight string carrying that key (later bindings
overwrite earlier ones): for every key, the dict lookup equals `lastBinding`. -/
theorem C8_parse_fail_last_binding :
    (∀ (name : Str) (asp : List Str),
      Item.from_raw name asp = none ↔
        ∃ w ∈ asp, findSep [' '] w = none ∨
          ∃ pre post, findSep [' '] w = some (pre, post) ∧ parseInt pre = none) ∧
    (∀ d : List (Str × List Str),
      load_aspects d = none ↔ ∃ p ∈ d, Item.from_raw p.1 p.2 = none) ∧
    (∀ (name : Str) (asp : List Str) (it : Item), Item.from_raw name asp = some it →
      (∀ k, dictLookup it.aspects k = lastBinding k asp) ∧
      ∀ w ∈ asp, ∃ pre post n, findSep [' '] w = some (pre, post) ∧ parseInt pre = some n ∧
        post ∈ dictKeys it.aspects) := by
  refine ⟨?_, ?_, ?_⟩
  · intro name asp
    rw [from_raw_none_iff]
    unfold buildAspects
    rw [buildAspectsFrom_none_iff]
    constructor
    · rintro ⟨w, hw, hnone⟩
      exact ⟨w, hw, parseWeight_none_iff.mp hnone⟩
    · rintro ⟨w, hw, h⟩
      exact ⟨w, hw, parseWeight_none_iff.mpr h⟩
  · intro d
    unfold load_aspects
    cases hp : parseAll d with
    | none => simpa using parseAll_none_iff.mp hp
    | some l =>
      constructor
      · intro h
        cases h
      · intro h
        rw [parseAll_none_iff.mpr h] at hp
        cases hp
  · intro name asp it hit
    have hasp : buildAspectsFrom [] asp = some it.aspects := from_raw_aspects hit
    constructor
    · intro k
      have h := buildAspectsFrom_lastBinding hasp k
      cases hlb : lastBinding k asp with
      | some n =>
        rw [hlb] at h
        exact h
      | none =>
        rw [hlb] at h
        exact h
    · intro w hw
      have hpw : parseWeight w ≠ none := by
        intro hn
        have : buildAspectsFrom [] asp = none := buildAspectsFrom_none_iff.mpr ⟨w, hw, hn⟩
        rw [this] at hasp
        cases hasp
      cases hpwv : parseWeight w with
      | none => exact absurd hpwv hpw
      | some kv =>
        rcases parseWeight_some_iff.mp (show parseWeight w = some (kv.1, kv.2) by rw [hpwv]) with
          ⟨pre, hfs, hpi⟩
        exact ⟨pre, kv.1, kv.2, hfs, hpi, mem_keys_buildAspectsFrom_of_mem hasp hw hpwv⟩

/-- C8 (witness): a weight string without a space fails the record parse and
the whole load; and on the duplicate-key record `["1 a", "2 a"]` the lookup
of `a` equals the last binding, the value `2`. -/
theorem C8_witness :
    Item.from_raw ("A").toList [("nospace").toList] = none ∧
    load_aspects [(("A").toList, [("nospace").toList])] = none ∧
    dictLookup [(("a").toList, (2 : Int))] ("a").toList =
      lastBinding ("a").toList [("1 a").toList, ("2 a").toList] := by
  refine ⟨?_, ?_, ?_⟩
  · exact (C8_parse_fail_last_binding.1 ("A").toList [("nospace").toList]).mpr
      ⟨("nospace").toList, List.mem_singleton.mpr rfl, Or.inl (by decide)⟩
  · exact (C8_parse_fail_last_binding.2.1 [(("A").toList, [("nospace").toList])]).mpr
      ⟨(("A").toList, [("nospace").toList]), List.mem_singleton.mpr rfl, by decide⟩
  · exact (C8_parse_fail_last_binding.2.2 ("X").toList
      [("1 a").toList, ("2 a").toList]
      ⟨("X").toList, none, [(("a").toList, 2)]⟩ (by decide)).1 (("a").toList)

/-! C9.  `partition` splits at the FIRST occurrence of `" --- "`, so
`from_raw (X + " --- ")` coincides with `from_raw X` only when appending the
separator creates its first occurrence at the very end of the name: `X` must
not contain `" --- "` and must not end with `" ---"` (in the latter case the
appended separator overlaps with the tail of `X`). -/

theorem findSep_append_sep (X : Str) (h1 : findSep sepStr X = none)
    (h2 : List.isSuffixOf sfxStr X = false) :
    findSep sepStr (X ++ sepStr) = some (X, []) := by
  induction X with
  | nil => decide
  | cons c X' ih =>
    have hlen5 : sepStr.length = 5 := by decide
    -- unpack the failing search on c :: X'
    have hunf := h1
    simp only [findSep] at hunf
    have hpre : sepStr.isPrefixOf (c :: X') = false := by
      by_contra hb
      have : sepStr.isPrefixOf (c :: X') = true := by
        revert hb
        cases sepStr.isPrefixOf (c :: X') <;> simp
      rw [this] at hunf
      cases hunf
    rw [hpre] at hunf
    simp only [Bool.false_eq_true, if_false] at hunf
    have hX'none : findSep sepStr X' = none := by
      cases hX : findSep sepStr X' with
      | none => rfl
      | some pr =>
        rw [hX] at hunf
        obtain ⟨b, a⟩ := pr
        cases hunf
    -- the appended separator is not a prefix of c :: X' ++ sepStr
    have hpre2 : sepStr.isPrefixOf (c :: (X' ++ sepStr)) = false := by
      by_contra hb
      have hptrue : sepStr.isPrefixOf (c :: (X' ++ sepStr)) = true := by
        revert hb
        cases sepStr.isPrefixOf (c :: (X' ++ sepStr)) <;> simp
      have hp : sepStr <+: (c :: X') ++ sepStr := by
        rw [List.cons_append]
        exact List.isPrefixOf_iff_prefix.mp hptrue
      have hXlen : 0 < (c :: X').length := by simp
      by_cases h5 : 5 ≤ (c :: X').length
      · have htk := List.prefix_iff_eq_take.mp hp
        rw [hlen5, List.take_append_of_le_length h5] at htk
        have : sepStr <+: (c :: X') := by
          rw [List.prefix_iff_eq_take, hlen5]
          exact htk
        have := List.isPrefixOf_iff_prefix.mpr this
        rw [this] at hpre
        cases hpre
      · push_neg at h5
        have htk := List.prefix_iff_eq_take.mp hp
        rw [hlen5, List.take_append_eq_append_take,
          List.take_of_length_le (by omega)] at htk
        -- htk : sepStr = (c :: X') ++ take (5 - (c :: X').length) sepStr
        have hXeq : (c :: X') = sepStr.take (c :: X').length := by
          have hc := congrArg (List.take (c :: X').length) htk
          rw [List.take_append_of_le_length (le_refl _), List.take_length] at hc
          exact hc.symm
        have hk : (c :: X').length = 1 ∨ (c :: X').length = 2 ∨
            (c :: X').length = 3 ∨ (c :: X').length = 4 := by omega
        rcases hk with hk | hk | hk | hk <;> rw [hk] at hXeq htk <;> rw [hXeq] at htk
        · exact absurd htk (by decide)
        · exact absurd htk (by decide)
        · exact absurd htk (by decide)
        · rw [hXeq] at h2
          exact absurd h2 (by decide)
    -- the tail search succeeds by the induction hypothesis
    have hsuf' : List.isSuffixOf sfxStr X' = false := by
      cases hb : List.isSuffixOf sfxStr X' with
      | false => rfl
      | true =>
        have : List.isSuffixOf sfxStr (c :: X') = true :=
          List.isSuffixOf_iff_suffix.mpr
            ((List.isSuffixOf_iff_suffix.mp hb).trans (List.suffix_cons c X'))
        rw [this] at h2
        cases h2
    have hih := ih hX'none hsuf'
    show findSep sepStr (c :: (X' ++ sepStr)) = some (c :: X', [])
    simp only [findSep]
    rw [hpre2]
    simp only [Bool.false_eq_true, if_false]
    rw [hih]

/-- C9 (counterexample): for a name `X` that itself contains the separator,
`from_raw (X + " --- ")` does not produce name `X` with no variant: the split
happens at the first occurrence inside `X`. -/
theorem C9_counterexample :
    Item.from_raw (("a --- b").toList ++ sepStr) [] =
      some ⟨("a").toList, some [("b --- ").toList], []⟩ ∧
    Item.from_raw (("a --- b").toList) [] = some ⟨("a").toList, some [("b").toList], []⟩ ∧
    ("a").toList ≠ ("a --- b").toList := by
  exact ⟨by decide, by decide, by decide⟩

/-- C9 (amended): for every name `X` that neither contains `" --- "` nor ends
with `" ---"`, parsing `X + " --- "` produces the same record as parsing `X`:
name `X` and absent variants (`data = none`). -/
theorem C9_empty_variant (X : Str) (asp : List Str)
    (h1 : findSep sepStr X = none) (h2 : List.isSuffixOf sfxStr X = false) :
    Item.from_raw (X ++ sepStr) asp = Item.from_raw X asp ∧
    ∀ it, Item.from_raw X asp = some it → it.item = X ∧ it.data = none := by
  have hsep := findSep_append_sep X h1 h2
  unfold Item.from_raw
  rw [h1, hsep]
  cases hb : buildAspects asp with
  | none => exact ⟨rfl, fun it hit => nomatch hit⟩
  | some A =>
    refine ⟨by simp, ?_⟩
    intro it hit
    simp only [Option.some_inj] at hit
    rw [← hit]
    exact ⟨rfl, rfl⟩

/-- C9 (witness). -/
theorem C9_witness :
    Item.from_raw (("Water").toList ++ sepStr) [] = Item.from_raw ("Water").toList [] :=
  (C9_empty_variant ("Water").toList [] (by decide) (by decide)).1

/-! The dedup pass of `load_aspects`: merge-class characterization (C4, C5). -/

theorem filter_eq_cons_decomp {p : Item → Bool} {l : List Item} {x : Item} {t : List Item}
    (h : l.filter p = x :: t) :
    ∃ l1 l2, l = l1 ++ x :: l2 ∧ (∀ u ∈ l1, p u = false) ∧ t = l2.filter p := by
  induction l generalizing x t with
  | nil => cases h
  | cons a l ih =>
    rw [List.filter_cons] at h
    split at h
    · injection h with h1 h2
      subst h1
      subst h2
      exact ⟨[], l, rfl, fun u hu => absurd hu (List.not_mem_nil u), rfl⟩
    · rename_i hpa
      rcases ih h with ⟨l1, l2, rfl, hl1, rfl⟩
      refine ⟨a :: l1, l2, rfl, ?_, rfl⟩
      intro u hu
      rcases List.mem_cons.mp hu with rfl | hu2
      · revert hpa
        cases p u <;> simp
      · exact hl1 u hu2

theorem mergeGroup_eq_none_iff {vl : List Item} {it : Item} :
    mergeGroup vl it = none ↔ ∀ v ∈ vl, dictBeq v.aspects it.aspects = false := by
  induction vl with
  | nil => simp [mergeGroup]
  | cons v vs ih =>
    simp only [mergeGroup]
    cases hb : dictBeq v.aspects it.aspects with
    | true => simp [hb]
    | false => simp [hb, ih, Option.map_eq_none']

theorem mergeGroup_append {v1 : List Item} {v : Item} {v2 : List Item} {it : Item}
    (h1 : ∀ u ∈ v1, dictBeq u.aspects it.aspects = false)
    (hv : dictBeq v.aspects it.aspects = true) :
    mergeGroup (v1 ++ v :: v2) it = some (v1 ++ mergedItem v it :: v2) := by
  induction v1 with
  | nil => simp [mergeGroup, hv]
  | cons u us ih =>
    have hu : dictBeq u.aspects it.aspects = false := h1 u (List.mem_cons_self _ _)
    simp only [List.cons_append, mergeGroup, hu, Bool.false_eq_true, if_false, List.append_eq]
    rw [ih fun w hw => h1 w (List.mem_cons_of_mem _ hw)]
    rfl

theorem mergeGroup_some_inv {vl vl' : List Item} {it : Item}
    (h : mergeGroup vl it = some vl') :
    ∃ v1 v v2, vl = v1 ++ v :: v2 ∧ vl' = v1 ++ mergedItem v it :: v2 ∧
      dictBeq v.aspects it.aspects = true ∧
      ∀ u ∈ v1, dictBeq u.aspects it.aspects = false := by
  induction vl generalizing vl' with
  | nil => cases h
  | cons v vs ih =>
    simp only [mergeGroup] at h
    split at h
    · rename_i hb
      refine ⟨[], v, vs, rfl, ?_, hb, fun u hu => absurd hu (List.not_mem_nil u)⟩
      exact (Option.some_inj.mp h).symm
    · rename_i hb
      cases hm : mergeGroup vs it with
      | none =>
        rw [hm] at h
        cases h
      | some vs' =>
        rw [hm] at h
        simp only [Option.map_some', Option.some_inj] at h
        rcases ih hm with ⟨v1, v0, v2, he1, he2, hb0, hall⟩
        refine ⟨v :: v1, v0, v2, by rw [he1, List.cons_append],
          by rw [← h, he2, List.cons_append], hb0, ?_⟩
        intro u hu
        rcases List.mem_cons.mp hu with rfl | hu2
        · revert hb
          cases dictBeq u.aspects it.aspects <;> simp
        · exact hall u hu2

theorem pairwise_aspects_of_map_eq {l1 l2 : List Item}
    (h : l1.map Item.aspects = l2.map Item.aspects)
    (hp : l1.Pairwise (fun a b => dictBeq a.aspects b.aspects = false)) :
    l2.Pairwise (fun a b => dictBeq a.aspects b.aspects = false) := by
  have h1 := (@List.pairwise_map Item _ Item.aspects
    (fun x y => dictBeq x y = false) l1).mpr hp
  rw [h] at h1
  exact (@List.pairwise_map Item _ Item.aspects
    (fun x y => dictBeq x y = false) l2).mp h1

theorem inClass_mergedItem {A : List (Str × Int)} {v it : Item} :
    inClass A (mergedItem v it) = inClass A v := rfl

theorem dictBeq_across {A : List (Str × Int)} (hA : wfA A) {x y : Item}
    (hwx : wfA x.aspects) (hx : inClass A x = true)
    (hbeq : dictBeq x.aspects y.aspects = true) : inClass A y = true :=
  dictBeq_of_perm ((perm_of_dictBeq hA hx).trans (perm_of_dictBeq hwx hbeq))

theorem dictBeq_of_inClass {A : List (Str × Int)} (hA : wfA A) {x y : Item}
    (hx : inClass A x = true) (hy : inClass A y = true) :
    dictBeq x.aspects y.aspects = true :=
  dictBeq_of_perm ((perm_of_dictBeq hA hx).symm.trans (perm_of_dictBeq hA hy))

theorem inClass_of_dictBeq_it {A : List (Str × Int)} (hA : wfA A) {v it : Item}
    (hwv : wfA v.aspects) (hit : inClass A it = true)
    (hb : dictBeq v.aspects it.aspects = true) : inClass A v = true :=
  dictBeq_of_perm ((perm_of_dictBeq hA hit).trans (perm_of_dictBeq hwv hb).symm)

theorem addToGroup_not_inClass {A : List (Str × Int)} (hA : wfA A)
    {vl : List Item} {it : Item}
    (hwvl : ∀ v ∈ vl, wfA v.aspects) (hc : inClass A it = false) :
    classFilter A (addToGroup vl it) = classFilter A vl := by
  unfold addToGroup
  cases hm : mergeGroup vl it with
  | none => simp [classFilter, List.filter_append, hc]
  | some vl2 =>
    rcases mergeGroup_some_inv hm with ⟨v1, v, v2, rfl, rfl, hb, _⟩
    have hcv : inClass A v = false := by
      cases hcv : inClass A v with
      | false => rfl
      | true =>
        have hv : wfA v.aspects :=
          hwvl v (List.mem_append_right _ (List.mem_cons_self _ _))
        have := dictBeq_across hA hv hcv hb
        rw [this] at hc
        cases hc
    unfold classFilter
    rw [List.filter_append, List.filter_append, List.filter_cons, List.filter_cons]
    simp [inClass_mergedItem, hcv]

theorem addToGroup_inClass_empty {A : List (Str × Int)} (hA : wfA A)
    {vl : List Item} {it : Item}
    (hwvl : ∀ v ∈ vl, wfA v.aspects) (hc : inClass A it = true)
    (h0 : classFilter A vl = []) :
    classFilter A (addToGroup vl it) = [it] := by
  have hm : mergeGroup vl it = none := by
    rw [mergeGroup_eq_none_iff]
    intro v hv
    cases hb : dictBeq v.aspects it.aspects with
    | false => rfl
    | true =>
      have : inClass A v = true := inClass_of_dictBeq_it hA (hwvl v hv) hc hb
      have hfalse := List.filter_eq_nil_iff.mp h0 v hv
      rw [this] at hfalse
      exact absurd rfl hfalse
  unfold addToGroup
  rw [hm]
  unfold classFilter
  rw [List.filter_append]
  unfold classFilter at h0
  rw [h0]
  simp [hc]

theorem addToGroup_inClass_found {A : List (Str × Int)} (hA : wfA A)
    {vl : List Item} {it v : Item} {rest : List Item}
    (hwvl : ∀ x ∈ vl, wfA x.aspects) (hc : inClass A it = true)
    (h1 : classFilter A vl = v :: rest) :
    classFilter A (addToGroup vl it) = mergedItem v it :: rest := by
  have hv : inClass A v = true := by
    have hmem : v ∈ classFilter A vl := by
      rw [h1]
      exact List.mem_cons_self _ _
    exact (List.mem_filter.mp hmem).2
  rcases filter_eq_cons_decomp h1 with ⟨l1, l2, rfl, hl1, hrest⟩
  have hmerge : mergeGroup (l1 ++ v :: l2) it = some (l1 ++ mergedItem v it :: l2) := by
    refine mergeGroup_append ?_ (dictBeq_of_inClass hA hv hc)
    intro u hu
    cases hb : dictBeq u.aspects it.aspects with
    | false => rfl
    | true =>
      have : inClass A u = true :=
        inClass_of_dictBeq_it hA (hwvl u (List.mem_append_left _ hu)) hc hb
      rw [hl1 u hu] at this
      cases this
  unfold addToGroup
  rw [hmerge]
  unfold classFilter
  rw [List.filter_append, List.filter_cons]
  have hl1nil : List.filter (inClass A) l1 = [] :=
    List.filter_eq_nil_iff.mpr fun u hu => by rw [hl1 u hu]; simp
  rw [hl1nil]
  simp only [inClass_mergedItem, hv, if_true, List.nil_append]
  rw [hrest]

theorem addToGroup_wf {vl : List Item} {it : Item}
    (hwvl : ∀ x ∈ vl, wfA x.aspects) (hwit : wfA it.aspects) :
    ∀ x ∈ addToGroup vl it, wfA x.aspects := by
  unfold addToGroup
  cases hm : mergeGroup vl it with
  | none =>
    intro x hx
    rcases List.mem_append.mp hx with h | h
    · exact hwvl x h
    · rw [List.mem_singleton.mp h]
      exact hwit
  | some vl2 =>
    rcases mergeGroup_some_inv hm with ⟨v1, v, v2, rfl, rfl, _, _⟩
    intro x hx
    rcases List.mem_append.mp hx with h | h
    · exact hwvl x (List.mem_append_left _ h)
    · rcases List.mem_cons.mp h with rfl | h2
      · exact hwvl v (List.mem_append_right _ (List.mem_cons_self _ _))
      · exact hwvl x (List.mem_append_right _ (List.mem_cons_of_mem _ h2))

theorem addToGroup_pairwise {vl : List Item} {it : Item}
    (hp : vl.Pairwise (fun a b => dictBeq a.aspects b.aspects = false)) :
    (addToGroup vl it).Pairwise (fun a b => dictBeq a.aspects b.aspects = false) := by
  unfold addToGroup
  cases hm : mergeGroup vl it with
  | none =>
    refine List.pairwise_append.mpr ⟨hp, List.pairwise_singleton _ _, ?_⟩
    intro a ha b hb
    rw [List.mem_singleton.mp hb]
    exact mergeGroup_eq_none_iff.mp hm a ha
  | some vl2 =>
    rcases mergeGroup_some_inv hm with ⟨v1, v, v2, rfl, rfl, _, _⟩
    refine pairwise_aspects_of_map_eq ?_ hp
    simp [mergedItem]

theorem classFilter_small {A : List (Str × Int)} (hA : wfA A) {vl : List Item}
    (hp : vl.Pairwise (fun a b => dictBeq a.aspects b.aspects = false)) :
    classFilter A vl = [] ∨ ∃ v, classFilter A vl = [v] := by
  cases hcf : classFilter A vl with
  | nil => exact Or.inl rfl
  | cons v t =>
    cases ht : t with
    | nil => exact Or.inr ⟨v, rfl⟩
    | cons w t2 =>
      exfalso
      subst ht
      have hsubf : List.Sublist (v :: w :: t2) vl := by
        rw [← hcf]
        exact List.filter_sublist vl
      have hsub : List.Sublist [v, w] vl :=
        (List.Sublist.cons₂ v (List.Sublist.cons₂ w (List.nil_sublist t2))).trans hsubf
      have hpw := List.pairwise_iff_forall_sublist.mp hp hsub
      have hv : inClass A v = true := by
        have hmem : v ∈ classFilter A vl := by
          rw [hcf]
          exact List.mem_cons_self _ _
        exact (List.mem_filter.mp hmem).2
      have hw : inClass A w = true := by
        have hmem : w ∈ classFilter A vl := by
          rw [hcf]
          exact List.mem_cons_of_mem _ (List.mem_cons_self _ _)
        exact (List.mem_filter.mp hmem).2
      rw [dictBeq_of_inClass hA hv hw] at hpw
      cases hpw

theorem groupFold_classFilter {A : List (Str × Int)} (hA : wfA A) :
    ∀ (q vl : List Item), (∀ x ∈ q, wfA x.aspects) → (∀ x ∈ vl, wfA x.aspects) →
      vl.Pairwise (fun a b => dictBeq a.aspects b.aspects = false) →
      (classFilter A vl = [] →
        classFilter A (groupFold vl q) = specNew (classFilter A q)) ∧
      (∀ v, classFilter A vl = [v] →
        classFilter A (groupFold vl q) = [repM v (classFilter A q)]) := by
  intro q
  induction q with
  | nil =>
    intro vl _ _ _
    constructor
    · intro h0
      rw [show groupFold vl [] = vl from rfl, h0]
      rfl
    · intro v h1
      rw [show groupFold vl [] = vl from rfl, h1]
      rfl
  | cons it q' ih =>
    intro vl hwq hwvl hpair
    have hwit : wfA it.aspects := hwq it (List.mem_cons_self _ _)
    have hw' : ∀ x ∈ q', wfA x.aspects := fun x hx => hwq x (List.mem_cons_of_mem _ hx)
    have hinvw : ∀ x ∈ addToGroup vl it, wfA x.aspects := addToGroup_wf hwvl hwit
    have hinvp : (addToGroup vl it).Pairwise
        (fun a b => dictBeq a.aspects b.aspects = false) := addToGroup_pairwise hpair
    have IH := ih (addToGroup vl it) hw' hinvw hinvp
    have hgf : groupFold vl (it :: q') = groupFold (addToGroup vl it) q' := rfl
    constructor
    · intro hcf0
      rw [hgf]
      cases hc : inClass A it with
      | false =>
        have hstep : classFilter A (addToGroup vl it) = classFilter A vl :=
          addToGroup_not_inClass hA hwvl hc
        have hq : classFilter A (it :: q') = classFilter A q' := by
          unfold classFilter
          rw [List.filter_cons, hc]
          simp
        rw [hq]
        exact IH.1 (hstep.trans hcf0)
      | true =>
        have hstep : classFilter A (addToGroup vl it) = [it] :=
          addToGroup_inClass_empty hA hwvl hc hcf0
        have hq : classFilter A (it :: q') = it :: classFilter A q' := by
          unfold classFilter
          rw [List.filter_cons, hc]
          simp
        rw [hq]
        exact IH.2 it hstep
    · intro v hcf1
      rw [hgf]
      cases hc : inClass A it with
      | false =>
        have hstep : classFilter A (addToGroup vl it) = [v] := by
          rw [addToGroup_not_inClass hA hwvl hc, hcf1]
        have hq : classFilter A (it :: q') = classFilter A q' := by
          unfold classFilter
          rw [List.filter_cons, hc]
          simp
        rw [hq]
        exact IH.2 v hstep
      | true =>
        have hstep : classFilter A (addToGroup vl it) = [mergedItem v it] :=
          addToGroup_inClass_found hA hwvl hc hcf1
        have hq : classFilter A (it :: q') = it :: classFilter A q' := by
          unfold classFilter
          rw [List.filter_cons, hc]
          simp
        rw [hq]
        rw [IH.2 (mergedItem v it) hstep]
        rfl

theorem insertItem_cons_eq {k : Str} {vl : List Item} {rest : List (Str × List Item)}
    {it : Item} (h : k = it.item) :
    insertItem ((k, vl) :: rest) it = (k, addToGroup vl it) :: rest := by
  unfold insertItem addToGroup
  rw [if_pos h]
  cases mergeGroup vl it <;> rfl

theorem insertItem_cons_ne {k : Str} {vl : List Item} {rest : List (Str × List Item)}
    {it : Item} (h : ¬ k = it.item) :
    insertItem ((k, vl) :: rest) it = (k, vl) :: insertItem rest it := by
  conv_lhs => unfold insertItem
  rw [if_neg h]

theorem lookupG_insertItem (n : Str) (out : List (Str × List Item)) (it : Item) :
    lookupG n (insertItem out it) =
      if it.item = n then some (addToGroup ((lookupG n out).getD []) it)
      else lookupG n out := by
  induction out with
  | nil =>
    unfold insertItem lookupG
    by_cases h : it.item = n
    · rw [if_pos h, if_pos h]
      rfl
    · rw [if_neg h, if_neg h]
      rfl
  | cons p rest ih =>
    obtain ⟨k, vl⟩ := p
    by_cases hk : k = it.item
    · subst hk
      rw [insertItem_cons_eq rfl]
      by_cases hn : it.item = n
      · simp [lookupG, hn]
      · simp [lookupG, hn]
    · rw [insertItem_cons_ne hk]
      by_cases hn : k = n
      · have hni : ¬ it.item = n := fun h => hk (hn.trans h.symm)
        simp [lookupG, hn, hni]
      · simp only [lookupG]
        rw [if_neg hn, if_neg hn]
        exact ih

theorem buildOut_lookupG (n : Str) :
    ∀ (raw : List Item) (out : List (Str × List Item)),
      lookupG n (buildOut out raw) =
        match lookupG n out with
        | some vl => some (groupFold vl (raw.filter (fun x => decide (x.item = n))))
        | none =>
          if raw.filter (fun x => decide (x.item = n)) = [] then none
          else some (groupFold [] (raw.filter (fun x => decide (x.item = n)))) := by
  intro raw
  induction raw with
  | nil =>
    intro out
    cases h : lookupG n out with
    | some vl => simp [buildOut, h, groupFold]
    | none => simp [buildOut, h]
  | cons it rest ih =>
    intro out
    have hstep : buildOut out (it :: rest) = buildOut (insertItem out it) rest := rfl
    rw [hstep, ih (insertItem out it), lookupG_insertItem]
    by_cases hn : it.item = n
    · rw [if_pos hn]
      have hfc : (it :: rest).filter (fun x => decide (x.item = n)) =
          it :: rest.filter (fun x => decide (x.item = n)) := by
        rw [List.filter_cons]
        simp [hn]
      rw [hfc]
      cases h : lookupG n out with
      | some vl => rfl
      | none =>
        show some (groupFold (addToGroup [] it) (rest.filter (fun x => decide (x.item = n)))) =
          if it :: rest.filter (fun x => decide (x.item = n)) = [] then none
          else some (groupFold [] (it :: rest.filter (fun x => decide (x.item = n))))
        rw [if_neg (List.cons_ne_nil _ _)]
        rfl
    · rw [if_neg hn]
      have hfc : (it :: rest).filter (fun x => decide (x.item = n)) =
          rest.filter (fun x => decide (x.item = n)) := by
        rw [List.filter_cons]
        simp [hn]
      rw [hfc]

theorem mem_addToGroup {vl : List Item} {it x : Item} (hx : x ∈ addToGroup vl it) :
    x ∈ vl ∨ x = it ∨ ∃ v ∈ vl, x = mergedItem v it := by
  unfold addToGroup at hx
  cases hm : mergeGroup vl it with
  | none =>
    rw [hm] at hx
    rcases List.mem_append.mp hx with h | h
    · exact Or.inl h
    · exact Or.inr (Or.inl (List.mem_singleton.mp h))
  | some vl2 =>
    rw [hm] at hx
    rcases mergeGroup_some_inv hm with ⟨v1, v, v2, rfl, rfl, _, _⟩
    rcases List.mem_append.mp hx with h | h
    · exact Or.inl (List.mem_append_left _ h)
    · rcases List.mem_cons.mp h with rfl | h2
      · exact Or.inr (Or.inr ⟨v, List.mem_append_right _ (List.mem_cons_self _ _), rfl⟩)
      · exact Or.inl (List.mem_append_right _ (List.mem_cons_of_mem _ h2))

theorem insertItem_names {out : List (Str × List Item)} {it : Item}
    (h : ∀ p ∈ out, ∀ v ∈ p.2, v.item = p.1) :
    ∀ p ∈ insertItem out it, ∀ v ∈ p.2, v.item = p.1 := by
  induction out with
  | nil =>
    intro p hp v hv
    rw [List.mem_singleton.mp hp] at hv ⊢
    rw [List.mem_singleton.mp hv]
  | cons q rest ih =>
    obtain ⟨k, vl⟩ := q
    by_cases hk : k = it.item
    · rw [insertItem_cons_eq hk]
      intro p hp v hv
      rcases List.mem_cons.mp hp with rfl | hp2
      · rcases mem_addToGroup hv with h2 | h2 | ⟨v0, hv0, rfl⟩
        · exact h (k, vl) (List.mem_cons_self _ _) v h2
        · rw [h2, ← hk]
        · exact h (k, vl) (List.mem_cons_self _ _) v0 hv0
      · exact h p (List.mem_cons_of_mem _ hp2) v hv
    · rw [insertItem_cons_ne hk]
      intro p hp v hv
      rcases List.mem_cons.mp hp with rfl | hp2
      · exact h (k, vl) (List.mem_cons_self _ _) v hv
      · exact ih (fun q hq => h q (List.mem_cons_of_mem _ hq)) p hp2 v hv

theorem buildOut_names :
    ∀ (raw : List Item) (out : List (Str × List Item)),
      (∀ p ∈ out, ∀ v ∈ p.2, v.item = p.1) →
      ∀ p ∈ buildOut out raw, ∀ v ∈ p.2, v.item = p.1 := by
  intro raw
  induction raw with
  | nil => exact fun out h => h
  | cons it rest ih => exact fun out h => ih (insertItem out it) (insertItem_names h)

theorem keys_insertItem (out : List (Str × List Item)) (it : Item) :
    (insertItem out it).map Prod.fst =
      if it.item ∈ out.map Prod.fst then out.map Prod.fst
      else out.map Prod.fst ++ [it.item] := by
  induction out with
  | nil => simp [insertItem]
  | cons p rest ih =>
    obtain ⟨k, vl⟩ := p
    by_cases hk : k = it.item
    · subst hk
      rw [insertItem_cons_eq rfl]
      simp
    · rw [insertItem_cons_ne hk]
      simp only [List.map_cons, ih]
      by_cases hm : it.item ∈ rest.map Prod.fst
      · rw [if_pos hm, if_pos (List.mem_cons_of_mem _ hm)]
      · rw [if_neg hm, if_neg ?_]
        · simp
        · intro hmem
          rcases List.mem_cons.mp hmem with h2 | h2
          · exact hk h2.symm
          · exact hm h2

theorem buildOut_keys_nodup :
    ∀ (raw : List Item) (out : List (Str × List Item)),
      (out.map Prod.fst).Nodup → ((buildOut out raw).map Prod.fst).Nodup := by
  intro raw
  induction raw with
  | nil => exact fun out h => h
  | cons it rest ih =>
    intro out h
    refine ih (insertItem out it) ?_
    rw [keys_insertItem]
    by_cases hm : it.item ∈ out.map Prod.fst
    · rw [if_pos hm]
      exact h
    · rw [if_neg hm]
      refine List.Nodup.append h (List.nodup_singleton _) ?_
      intro a ha hb
      rw [List.mem_singleton.mp hb] at ha
      exact hm ha

theorem flatten_filter_class (A : List (Str × Int)) (n : Str) :
    ∀ (gs : List (Str × List Item)),
      (∀ p ∈ gs, ∀ v ∈ p.2, v.item = p.1) → (gs.map Prod.fst).Nodup →
      (gs.map Prod.snd).flatten.filter (fun e => decide (e.item = n) && inClass A e) =
        classFilter A ((lookupG n gs).getD []) := by
  intro gs
  induction gs with
  | nil =>
    intro _ _
    rfl
  | cons p rest ih =>
    obtain ⟨k, vl⟩ := p
    intro hnames hnodup
    have hvl : ∀ v ∈ vl, v.item = k := hnames (k, vl) (List.mem_cons_self _ _)
    simp only [List.map_cons, List.flatten_cons, List.filter_append]
    by_cases hk : k = n
    · subst hk
      have h1 : vl.filter (fun e => decide (e.item = k) && inClass A e) = classFilter A vl := by
        refine List.filter_congr fun e he => ?_
        rw [hvl e he]
        simp [classFilter]
      have h2 : (rest.map Prod.snd).flatten.filter
          (fun e => decide (e.item = k) && inClass A e) = [] := by
        refine List.filter_eq_nil_iff.mpr fun e he => ?_
        rcases List.mem_flatten.mp he with ⟨l, hl, hel⟩
        rcases List.mem_map.mp hl with ⟨⟨k2, vl2⟩, hq, rfl⟩
        have : e.item = k2 := hnames (k2, vl2) (List.mem_cons_of_mem _ hq) e hel
        have hk2 : ¬ k2 = k := by
          intro hkk
          have := List.nodup_cons.mp hnodup
          exact this.1 (hkk ▸ List.mem_map.mpr ⟨(k2, vl2), hq, rfl⟩)
        simp [this, hk2]
      rw [h1, h2, List.append_nil]
      have : lookupG k ((k, vl) :: rest) = some vl := by
        simp [lookupG]
      rw [this]
      rfl
    · have h1 : vl.filter (fun e => decide (e.item = n) && inClass A e) = [] := by
        refine List.filter_eq_nil_iff.mpr fun e he => ?_
        simp [hvl e he, hk]
      have hlk : lookupG n ((k, vl) :: rest) = lookupG n rest := by
        simp only [lookupG]
        rw [if_neg hk]
      rw [h1, hlk, List.nil_append]
      exact ih (fun q hq => hnames q (List.mem_cons_of_mem _ hq))
        (List.nodup_cons.mp hnodup).2

theorem buildOut_lookupG_nil (n : Str) (raw : List Item) :
    lookupG n (buildOut [] raw) =
      if raw.filter (fun x => decide (x.item = n)) = [] then none
      else some (groupFold [] (raw.filter (fun x => decide (x.item = n)))) := by
  rw [buildOut_lookupG n raw []]
  rfl

theorem filter_name_class (raw : List Item) (A : List (Str × Int)) (n : Str) :
    classFilter A (raw.filter (fun x => decide (x.item = n))) =
      raw.filter (fun x => decide (x.item = n) && inClass A x) := by
  unfold classFilter
  rw [List.filter_filter]
  exact List.filter_congr fun x _ => Bool.and_comm _ _

/-- The central characterization of the dedup pass: for any name `n` and any
well-formed aspect dict `A`, the entries of `dedupe raw` with name `n` and
aspects dict-equal to `A` are exactly one representative whose data merges all
contributing records in input order (`specNew`), or none when no record
contributes. -/
theorem dedupe_class_char {raw : List Item} (hw : ∀ x ∈ raw, wfA x.aspects)
    {A : List (Str × Int)} (hA : wfA A) (n : Str) :
    (dedupe raw).filter (fun e => decide (e.item = n) && inClass A e) =
      specNew (raw.filter (fun x => decide (x.item = n) && inClass A x)) := by
  unfold dedupe
  rw [flatten_filter_class A n (buildOut [] raw)
    (buildOut_names raw [] (fun p hp => absurd hp (List.not_mem_nil p)))
    (buildOut_keys_nodup raw [] List.nodup_nil)]
  rw [buildOut_lookupG_nil n raw]
  rw [← filter_name_class raw A n]
  by_cases hnf : raw.filter (fun x => decide (x.item = n)) = []
  · rw [if_pos hnf, hnf]
    rfl
  · rw [if_neg hnf]
    show classFilter A (groupFold [] (raw.filter (fun x => decide (x.item = n)))) = _
    have hwnf : ∀ x ∈ raw.filter (fun x => decide (x.item = n)), wfA x.aspects :=
      fun x hx => hw x (List.mem_of_mem_filter hx)
    exact (groupFold_classFilter hA (raw.filter fun x => decide (x.item = n)) []
      hwnf (fun x hx => absurd hx (List.not_mem_nil x)) List.Pairwise.nil).1 rfl

theorem parseAll_wf {d : List (Str × List Str)} {raw : List Item}
    (h : parseAll d = some raw) : ∀ x ∈ raw, wfA x.aspects := by
  induction d generalizing raw with
  | nil =>
    cases h
    intro x hx
    cases hx
  | cons p rest ih =>
    simp only [parseAll] at h
    cases hp : Item.from_raw p.1 p.2 with
    | none =>
      rw [hp] at h
      cases h
    | some it =>
      rw [hp] at h
      cases hr : parseAll rest with
      | none =>
        rw [hr] at h
        cases h
      | some l =>
        rw [hr] at h
        cases h
        intro x hx
        rcases List.mem_cons.mp hx with rfl | hx2
        · exact wfA_of_from_raw hp
        · exact ih hr x hx2

theorem from_raw_data_shape {name : Str} {asp : List Str} {it : Item}
    (h : Item.from_raw name asp = some it) :
    it.data = none ∨ ∃ s, it.data = some [s] := by
  unfold Item.from_raw at h
  cases hb : buildAspects asp with
  | none =>
    rw [hb] at h
    cases h
  | some A =>
    rw [hb] at h
    cases hf : findSep sepStr name with
    | none =>
      rw [hf] at h
      cases h
      exact Or.inl rfl
    | some pr =>
      obtain ⟨nm, post⟩ := pr
      rw [hf] at h
      cases h
      by_cases hp : post = []
      · rw [if_pos hp]
        exact Or.inl rfl
      · rw [if_neg hp]
        exact Or.inr ⟨post, rfl⟩

theorem parseAll_data_shape {d : List (Str × List Str)} {raw : List Item}
    (h : parseAll d = some raw) :
    ∀ x ∈ raw, x.data = none ∨ ∃ s, x.data = some [s] := by
  induction d generalizing raw with
  | nil =>
    cases h
    intro x hx
    cases hx
  | cons p rest ih =>
    simp only [parseAll] at h
    cases hp : Item.from_raw p.1 p.2 with
    | none =>
      rw [hp] at h
      cases h
    | some it =>
      rw [hp] at h
      cases hr : parseAll rest with
      | none =>
        rw [hr] at h
        cases h
      | some l =>
        rw [hr] at h
        cases h
        intro x hx
        rcases List.mem_cons.mp hx with rfl | hx2
        · exact from_raw_data_shape hp
        · exact ih hr x hx2

theorem mergedData_eq_flatten :
    ∀ (cs : List Item) (d0 : Option (List Str)), cs ≠ [] →
      mergedData cs d0 =
        some (d0.getD [noneStr] ++ (cs.map (fun c => c.data.getD [noneStr])).flatten) := by
  intro cs
  induction cs with
  | nil =>
    intro d0 h
    exact absurd rfl h
  | cons c cs' ih =>
    intro d0 _
    by_cases hne : cs' = []
    · subst hne
      simp [mergedData, List.foldl]
    · have hstep : mergedData (c :: cs') d0 =
          mergedData cs' (some (d0.getD [noneStr] ++ c.data.getD [noneStr])) := rfl
      rw [hstep, ih _ hne]
      simp [List.map_cons, List.flatten_cons, List.append_assoc]

theorem load_aspects_some {d : List (Str × List Str)} {out : List Item}
    (h : load_aspects d = some out) : ∃ raw, parseAll d = some raw ∧ out = dedupe raw := by
  unfold load_aspects at h
  cases hp : parseAll d with
  | none =>
    rw [hp] at h
    cases h
  | some raw =>
    rw [hp] at h
    exact ⟨raw, rfl, (Option.some_inj.mp h).symm⟩

theorem insertItem_groups_pairwise {out : List (Str × List Item)} {it : Item}
    (h : ∀ p ∈ out, p.2.Pairwise (fun a b => dictBeq a.aspects b.aspects = false)) :
    ∀ p ∈ insertItem out it,
      p.2.Pairwise (fun a b => dictBeq a.aspects b.aspects = false) := by
  induction out with
  | nil =>
    intro p hp
    rw [List.mem_singleton.mp hp]
    exact List.pairwise_singleton _ _
  | cons q rest ih =>
    obtain ⟨k, vl⟩ := q
    by_cases hk : k = it.item
    · rw [insertItem_cons_eq hk]
      intro p hp
      rcases List.mem_cons.mp hp with rfl | hp2
      · exact addToGroup_pairwise (h (k, vl) (List.mem_cons_self _ _))
      · exact h p (List.mem_cons_of_mem _ hp2)
    · rw [insertItem_cons_ne hk]
      intro p hp
      rcases List.mem_cons.mp hp with rfl | hp2
      · exact h (k, vl) (List.mem_cons_self _ _)
      · exact ih (fun q hq => h q (List.mem_cons_of_mem _ hq)) p hp2

theorem buildOut_groups_pairwise :
    ∀ (raw : List Item) (out : List (Str × List Item)),
      (∀ p ∈ out, p.2.Pairwise (fun a b => dictBeq a.aspects b.aspects = false)) →
      ∀ p ∈ buildOut out raw,
        p.2.Pairwise (fun a b => dictBeq a.aspects b.aspects = false) := by
  intro raw
  induction raw with
  | nil => exact fun out h => h
  | cons it rest ih =>
    exact fun out h => ih (insertItem out it) (insertItem_groups_pairwise h)

theorem groups_cross {gs : List (Str × List Item)}
    (hnodup : (gs.map Prod.fst).Nodup)
    (hnames : ∀ p ∈ gs, ∀ v ∈ p.2, v.item = p.1) :
    (gs.map Prod.snd).Pairwise
      (fun l1 l2 => ∀ x ∈ l1, ∀ y ∈ l2, ¬ x.item = y.item) := by
  induction gs with
  | nil => exact List.Pairwise.nil
  | cons q rest ih =>
    obtain ⟨k, vl⟩ := q
    rw [List.map_cons, List.pairwise_cons]
    obtain ⟨hknot, hnodup2⟩ := List.nodup_cons.mp hnodup
    constructor
    · intro l2 hl2 x hx y hy
      rcases List.mem_map.mp hl2 with ⟨⟨k2, vl2⟩, hq2, rfl⟩
      have hxk : x.item = k := hnames (k, vl) (List.mem_cons_self _ _) x hx
      have hyk : y.item = k2 := hnames (k2, vl2) (List.mem_cons_of_mem _ hq2) y hy
      intro heq
      apply hknot
      rw [← hxk, heq, hyk]
      exact List.mem_map.mpr ⟨(k2, vl2), hq2, rfl⟩
    · exact ih hnodup2 fun q hq => hnames q (List.mem_cons_of_mem _ hq)

theorem band_true_iff {a b : Bool} : (a && b) = true ↔ a = true ∧ b = true := by
  cases a <;> cases b <;> simp

/-- C4: records with the same canonical name and dict-equal attributes merge
into exactly one output Entry.  For any two such records in the raw input, the
loaded list has exactly one entry of that name and attribute class; its
aspects are those of the first contributing record, and its data is the
concatenation, in input order, of every contributing record's variant list
with `['None']` standing in for a record that carried no variant (each
contributing record's data is `none` or a one-variant list, so the flattened
concatenation lists one string per contributing record). -/
theorem C4_merge_variants
    (d : List (Str × List Str)) (out raw u v w : List Item) (r1 r2 : Item)
    (hparse : parseAll d = some raw)
    (hload : load_aspects d = some out)
    (hsplit : raw = u ++ r1 :: v ++ r2 :: w)
    (hname : r2.item = r1.item)
    (hasp : dictBeq r1.aspects r2.aspects = true) :
    out.filter (fun e => decide (e.item = r1.item) && inClass r1.aspects e) =
      [⟨r1.item,
        some (((raw.filter (fun x => decide (x.item = r1.item) && inClass r1.aspects x)).map
          (fun c => c.data.getD [noneStr])).flatten),
        ((raw.filter
          (fun x => decide (x.item = r1.item) && inClass r1.aspects x)).headI).aspects⟩] ∧
    ∀ c ∈ raw.filter (fun x => decide (x.item = r1.item) && inClass r1.aspects x),
      c.data = none ∨ ∃ s, c.data = some [s] := by
  have hout : out = dedupe raw := by
    rcases load_aspects_some hload with ⟨raw2, hp2, ho2⟩
    rw [hparse] at hp2
    rw [ho2, (Option.some_inj.mp hp2).symm]
  have hw := parseAll_wf hparse
  have hr1mem : r1 ∈ raw := by
    rw [hsplit]
    exact List.mem_append_left _ (List.mem_append_right _ (List.mem_cons_self _ _))
  have hr2mem : r2 ∈ raw := by
    rw [hsplit]
    exact List.mem_append_right _ (List.mem_cons_self _ _)
  have hA : wfA r1.aspects := hw r1 hr1mem
  constructor
  · have hmaster := dedupe_class_char hw hA r1.item
    rw [hout, hmaster]
    have hp1b : (decide (r1.item = r1.item) && inClass r1.aspects r1) = true :=
      band_true_iff.mpr ⟨decide_eq_true rfl,
        show inClass r1.aspects r1 = true from dictBeq_refl r1.aspects⟩
    have hp2b : (decide (r2.item = r1.item) && inClass r1.aspects r2) = true :=
      band_true_iff.mpr ⟨decide_eq_true hname,
        show inClass r1.aspects r2 = true from hasp⟩
    have hsubrr : List.Sublist [r1, r2] raw := by
      rw [hsplit]
      show List.Sublist ([r1] ++ [r2]) ((u ++ r1 :: v) ++ r2 :: w)
      refine List.Sublist.append ?_ (List.Sublist.cons₂ _ (List.nil_sublist w))
      refine List.Sublist.trans ?_ (List.sublist_append_right u (r1 :: v))
      exact List.Sublist.cons₂ _ (List.nil_sublist v)
    have hq1 : inClass r1.aspects r1 = true := dictBeq_refl r1.aspects
    have hq2 : inClass r1.aspects r2 = true := hasp
    have hff : [r1, r2].filter
        (fun x => decide (x.item = r1.item) && inClass r1.aspects x) = [r1, r2] := by
      simp [List.filter_cons, hq1, hq2, hname]
    have hlen2 : 2 ≤ (raw.filter
        (fun x => decide (x.item = r1.item) && inClass r1.aspects x)).length := by
      have h1 := (hsubrr.filter
        (fun x => decide (x.item = r1.item) && inClass r1.aspects x)).length_le
      rw [hff] at h1
      simpa using h1
    cases hcs : raw.filter (fun x => decide (x.item = r1.item) && inClass r1.aspects x) with
    | nil =>
      rw [hcs] at hlen2
      simp at hlen2
    | cons c1 cs =>
      have hne2 : cs ≠ [] := by
        intro h0
        rw [hcs, h0] at hlen2
        simp at hlen2
      have hc1 : c1 ∈ raw.filter
          (fun x => decide (x.item = r1.item) && inClass r1.aspects x) := by
        rw [hcs]
        exact List.mem_cons_self _ _
      have hitem : c1.item = r1.item :=
        of_decide_eq_true (band_true_iff.mp (List.mem_filter.mp hc1).2).1
      show [repM c1 cs] = _
      simp only [List.map_cons, List.flatten_cons, List.headI]
      rw [show repM c1 cs = ⟨c1.item, mergedData cs c1.data, c1.aspects⟩ from rfl]
      rw [mergedData_eq_flatten cs c1.data hne2, hitem]
  · intro c hc
    exact parseAll_data_shape hparse c (List.mem_of_mem_filter hc)

/-- C4 (witness): the Water scenario.  The two raw records merge into one
entry named `Water` with variants `["None", "bucket"]` and aspects
`{aqua: 2}`; the singleton result passes its own name-and-class filter. -/
theorem C4_witness :
    ([⟨("Water").toList, some [("None").toList, ("bucket").toList],
        [(("aqua").toList, 2)]⟩] : List Item).filter
      (fun e => decide (e.item = ("Water").toList) &&
        inClass [(("aqua").toList, 2)] e) =
      [⟨("Water").toList, some [("None").toList, ("bucket").toList],
        [(("aqua").toList, 2)]⟩] ∧
    load_aspects [(("Water").toList, [("2 aqua").toList]),
        (("Water --- bucket").toList, [("2 aqua").toList])] =
      some [⟨("Water").toList, some [("None").toList, ("bucket").toList],
        [(("aqua").toList, 2)]⟩] := by
  constructor
  · exact (C4_merge_variants
      [(("Water").toList, [("2 aqua").toList]),
        (("Water --- bucket").toList, [("2 aqua").toList])]
      [⟨("Water").toList, some [("None").toList, ("bucket").toList],
        [(("aqua").toList, 2)]⟩]
      [⟨("Water").toList, none, [(("aqua").toList, 2)]⟩,
        ⟨("Water").toList, some [("bucket").toList], [(("aqua").toList, 2)]⟩]
      [] [] []
      ⟨("Water").toList, none, [(("aqua").toList, 2)]⟩
      ⟨("Water").toList, some [("bucket").toList], [(("aqua").toList, 2)]⟩
      (by decide) (by decide) rfl rfl (by decide)).1
  · decide

/-- C5: after normalization no two Entries share both their name and a
dict-equal attributes mapping; and two raw records with the same canonical
name but attribute mappings that are not dict-equal yield two distinct
Entries carrying that name in the output. -/
theorem C5_name_aspects_invariant :
    (∀ (d : List (Str × List Str)) (out : List Item), load_aspects d = some out →
      out.Pairwise (fun a b => ¬(a.item = b.item ∧ dictBeq a.aspects b.aspects = true))) ∧
    (∀ (d : List (Str × List Str)) (out raw u v w : List Item) (r1 r2 : Item),
      parseAll d = some raw → load_aspects d = some out →
      raw = u ++ r1 :: v ++ r2 :: w → r2.item = r1.item →
      dictBeq r1.aspects r2.aspects = false →
      ∃ e1 e2, e1 ∈ out ∧ e2 ∈ out ∧ e1.item = r1.item ∧ e2.item = r1.item ∧
        dictBeq e1.aspects e2.aspects = false) := by
  constructor
  · intro d out hload
    rcases load_aspects_some hload with ⟨raw, _, rfl⟩
    unfold dedupe
    rw [List.pairwise_flatten]
    constructor
    · intro l hl
      rcases List.mem_map.mp hl with ⟨p, hp, rfl⟩
      have hpair := buildOut_groups_pairwise raw []
        (fun q hq => absurd hq (List.not_mem_nil q)) p hp
      refine hpair.imp ?_
      intro a b hab hcon
      rw [hcon.2] at hab
      cases hab
    · have hcross := groups_cross (buildOut_keys_nodup raw [] List.nodup_nil)
        (buildOut_names raw [] (fun p hp => absurd hp (List.not_mem_nil p)))
      refine hcross.imp ?_
      intro l1 l2 h12 x hx y hy hcon
      exact h12 x hx y hy hcon.1
  · intro d out raw u v w r1 r2 hparse hload hsplit hname hasp
    have hout : out = dedupe raw := by
      rcases load_aspects_some hload with ⟨raw2, hp2, ho2⟩
      rw [hparse] at hp2
      rw [ho2, (Option.some_inj.mp hp2).symm]
    have hw := parseAll_wf hparse
    have hr1mem : r1 ∈ raw := by
      rw [hsplit]
      exact List.mem_append_left _ (List.mem_append_right _ (List.mem_cons_self _ _))
    have hr2mem : r2 ∈ raw := by
      rw [hsplit]
      exact List.mem_append_right _ (List.mem_cons_self _ _)
    have hA1 : wfA r1.aspects := hw r1 hr1mem
    have hA2 : wfA r2.aspects := hw r2 hr2mem
    have h1 := dedupe_class_char hw hA1 r1.item
    have h2 := dedupe_class_char hw hA2 r1.item
    have hr1f : r1 ∈ raw.filter
        (fun x => decide (x.item = r1.item) && inClass r1.aspects x) :=
      List.mem_filter.mpr ⟨hr1mem, band_true_iff.mpr ⟨decide_eq_true rfl,
        show inClass r1.aspects r1 = true from dictBeq_refl r1.aspects⟩⟩
    have hr2f : r2 ∈ raw.filter
        (fun x => decide (x.item = r1.item) && inClass r2.aspects x) :=
      List.mem_filter.mpr ⟨hr2mem, band_true_iff.mpr ⟨decide_eq_true hname,
        show inClass r2.aspects r2 = true from dictBeq_refl r2.aspects⟩⟩
    cases hcs1 : raw.filter (fun x => decide (x.item = r1.item) && inClass r1.aspects x) with
    | nil =>
      rw [hcs1] at hr1f
      cases hr1f
    | cons c1 cs1 =>
      cases hcs2 : raw.filter (fun x => decide (x.item = r1.item) && inClass r2.aspects x) with
      | nil =>
        rw [hcs2] at hr2f
        cases hr2f
      | cons c2 cs2 =>
        have hc1 : c1 ∈ raw.filter
            (fun x => decide (x.item = r1.item) && inClass r1.aspects x) := by
          rw [hcs1]
          exact List.mem_cons_self _ _
        have hc2 : c2 ∈ raw.filter
            (fun x => decide (x.item = r1.item) && inClass r2.aspects x) := by
          rw [hcs2]
          exact List.mem_cons_self _ _
        refine ⟨repM c1 cs1, repM c2 cs2, ?_, ?_, ?_, ?_, ?_⟩
        · have hmem : repM c1 cs1 ∈ (dedupe raw).filter
              (fun e => decide (e.item = r1.item) && inClass r1.aspects e) := by
            rw [h1, hcs1]
            exact List.mem_singleton.mpr rfl
          rw [hout]
          exact List.mem_of_mem_filter hmem
        · have hmem : repM c2 cs2 ∈ (dedupe raw).filter
              (fun e => decide (e.item = r1.item) && inClass r2.aspects e) := by
            rw [h2, hcs2]
            exact List.mem_singleton.mpr rfl
          rw [hout]
          exact List.mem_of_mem_filter hmem
        · exact of_decide_eq_true (band_true_iff.mp (List.mem_filter.mp hc1).2).1
        · exact of_decide_eq_true (band_true_iff.mp (List.mem_filter.mp hc2).2).1
        · show dictBeq c1.aspects c2.aspects = false
          cases hb : dictBeq c1.aspects c2.aspects with
          | false => rfl
          | true =>
            exfalso
            have hcl1 : inClass r1.aspects c1 = true :=
              (band_true_iff.mp (List.mem_filter.mp hc1).2).2
            have hcl2 : inClass r2.aspects c2 = true :=
              (band_true_iff.mp (List.mem_filter.mp hc2).2).2
            have hperm1 : r1.aspects.Perm c1.aspects := perm_of_dictBeq hA1 hcl1
            have hperm2 : r2.aspects.Perm c2.aspects := perm_of_dictBeq hA2 hcl2
            have hwc1 : wfA c1.aspects := hw c1 (List.mem_of_mem_filter hc1)
            have hpc : c1.aspects.Perm c2.aspects := perm_of_dictBeq hwc1 hb
            have : dictBeq r1.aspects r2.aspects = true :=
              dictBeq_of_perm ((hperm1.trans hpc).trans hperm2.symm)
            rw [this] at hasp
            cases hasp

/-- C5 (witness): two records with canonical name `A` and different attribute
dicts stay two entries; the invariant holds on the loaded list. -/
theorem C5_witness :
    ([⟨("A").toList, none, [(("x").toList, 1)]⟩,
      ⟨("A").toList, some [("v").toList], [(("y").toList, 1)]⟩] : List Item).Pairwise
      (fun a b => ¬(a.item = b.item ∧ dictBeq a.aspects b.aspects = true)) :=
  C5_name_aspects_invariant.1
    [(("A").toList, [("1 x").toList]), (("A --- v").toList, [("1 y").toList])]
    _ (by decide)

end Thaum
